import Mathlib

/-!
Shallow embedding of the FIFO ledger-accounting engine from
`src/engine.py` (class `FIFOEngine`) of the crypto-analysis repository.

Python `Decimal` values are modelled as exact rationals (`ℚ`); `datetime`
timestamps as `Nat`; Python dicts (which preserve insertion order) as
association lists with in-place update; `collections.deque` as `List`.
Python exceptions that the engine can actually raise (`UnboundLocalError`
from the stray `gain` reference on the transfer path, and hypothetically
`ZeroDivisionError` from `Decimal` division) are modelled with `Except`.
-/

namespace CryptoAnalysis

/-- Association-list lookup: Python `d[k]` / `k in d` semantics
(first, and only, binding of `k`). -/
def aget {α : Type} : List (String × α) → String → Option α
  | [], _ => none
  | (k', v) :: rest, k => if k' = k then some v else aget rest k

/-- Association-list lookup with default: Python `d.get(k, dflt)`. -/
def agetD {α : Type} (m : List (String × α)) (k : String) (dflt : α) : α :=
  (aget m k).getD dflt

/-- Association-list store: Python `d[k] = v` (updates in place if present,
else appends a new binding at the end, as Python dicts preserve insertion
order). -/
def aset {α : Type} : List (String × α) → String → α → List (String × α)
  | [], k, v => [(k, v)]
  | (k', v') :: rest, k, v =>
    if k' = k then (k, v) :: rest else (k', v') :: aset rest k v

/-- A tax lot, as stored in `FIFOEngine.inventory` deques
(`engine.py` lines 60-64): quantity, unit cost in USD, acquisition date. -/
structure Lot where
  qty : ℚ
  unit_cost : ℚ
  date : Nat
deriving DecidableEq

/-- A normalized transaction (`src/models.py`, dataclass `Transaction`). -/
structure Tx where
  txid : String
  refid : String
  timestamp : Nat
  type : String
  subtype : String
  asset_class : String
  asset : String
  amount : ℚ
  fee : ℚ
  balance : Option ℚ
  fiat_value : Option ℚ := none
  spot_price_usd : Option ℚ := none
deriving DecidableEq

/-- Convenience constructor for the fields the engine actually reads. -/
def mkTx (timestamp : Nat) (ty : String) (asset : String) (amount : ℚ)
    (fiat_value : Option ℚ) : Tx :=
  { txid := "", refid := "", timestamp := timestamp, type := ty, subtype := "",
    asset_class := "currency", asset := asset, amount := amount, fee := 0,
    balance := none, fiat_value := fiat_value }

/-- An entry of `FIFOEngine.realized_gains`.  The source appends dicts of
two distinct shapes: the seven-key dict of lines 139-147 (`full`) and the
three-key dict of lines 149-153 (`short`). -/
inductive GainRecord where
  | full (date : Nat) (asset : String) (quantity proceeds cost_basis gain_usd : ℚ)
      (tx_type : String)
  | short (date : Nat) (asset : String) (gain_usd : ℚ)
deriving DecidableEq

/-- The `gain_usd` field common to both record shapes. -/
def GainRecord.gain_usd : GainRecord → ℚ
  | .full _ _ _ _ _ g _ => g
  | .short _ _ g => g

/-- Per-asset entry of a snapshot's `asset_details` map
(`engine.py` lines 190-196). -/
structure AssetDetail where
  qty : ℚ
  cost_basis : ℚ
deriving DecidableEq

/-- An entry of `FIFOEngine.portfolio_history` (`engine.py` lines 184-197). -/
structure Snapshot where
  timestamp : Nat
  total_realized_gain : ℚ
  total_cost_basis : ℚ
  total_market_value : ℚ
  asset_details : List (String × AssetDetail)
deriving DecidableEq

/-- Python exceptions reachable inside `FIFOEngine.run`. -/
inductive PyErr where
  | unboundLocalError
  | zeroDivisionError
deriving DecidableEq

instance exceptDecEq {ε α : Type} [DecidableEq ε] [DecidableEq α] :
    DecidableEq (Except ε α) := fun x y =>
  match x, y with
  | .ok a, .ok b => decidable_of_iff (a = b) (by simp)
  | .error e, .error f => decidable_of_iff (e = f) (by simp)
  | .ok _, .error _ => isFalse (by simp)
  | .error _, .ok _ => isFalse (by simp)

/-- Python `Decimal` division `a / b`: raises `ZeroDivisionError` when the
divisor is zero (modelled exactly, not with Lean's total `x / 0 = 0`). -/
def pyDiv (a b : ℚ) : Except PyErr ℚ :=
  if b = 0 then Except.error PyErr.zeroDivisionError else Except.ok (a / b)

/-- The mutable state of one `FIFOEngine.run()` call: the instance fields
set in `__init__` plus the local variables `current_balances`,
`cumulative_realized_gain` and `gain` of `run` (`gain` is `none` before the
first disposal, modelling Python's unbound local). -/
structure EngineState where
  inventory : List (String × List Lot)
  last_known_prices : List (String × ℚ)
  realized_gains : List GainRecord
  portfolio_history : List Snapshot
  current_balances : List (String × ℚ)
  cumulative_realized_gain : ℚ
  lastGain : Option ℚ
deriving DecidableEq

/-- All-empty state at the top of `run` (fresh engine instance). -/
def initState : EngineState :=
  { inventory := [], last_known_prices := [], realized_gains := [],
    portfolio_history := [], current_balances := [],
    cumulative_realized_gain := 0, lastGain := none }

/-- Recognized fiat symbols (`engine.py` line 34). -/
def isFiat (asset : String) : Bool :=
  decide (asset ∈ ["ZUSD", "USD", "ZEUR", "EUR"])

/-- Python `str.lower()` on the character list (the type strings compared
against are all ASCII). -/
def strLower (s : String) : String := ⟨s.data.map Char.toLower⟩

/-- The disposition classifier for a negative-amount transaction
(`engine.py` lines 88-102): starts from `is_transfer = False`; under the
`withdrawals_as_transfers` flag, sets it for the explicit movement types
and then clears it for the trade-like types. -/
def classifyNegative (withdrawals_as_transfers : Bool) (ty : String) : Bool :=
  if withdrawals_as_transfers then
    let type_lower := strLower ty
    let is_transfer := decide (type_lower ∈ ["withdrawal", "transfer", "send", "deposit"])
    if type_lower ∈ ["trade", "margin", "settled", "spend"] then false else is_transfer
  else false

/-- The disposition classifier for a positive-amount transaction
(`engine.py` lines 52-54): a "return of transferred funds" when the
`deposits_as_transfers` flag is set and the type is a movement type. -/
def classifyPositive (deposits_as_transfers : Bool) (ty : String) : Bool :=
  deposits_as_transfers && decide (strLower ty ∈ ["deposit", "transfer", "receive"])

/-- The FIFO consumption loop (`engine.py` lines 120-134).  Given the
asset's queue and `qty_to_sell`, returns
`(total_cost_basis, qty_to_sell left over, remaining queue)`. -/
def fifoConsume : List Lot → ℚ → ℚ × ℚ × List Lot
  | [], q => (0, q, [])
  | lot :: rest, q =>
    if 0 < q then
      if lot.qty ≤ q then
        let r := fifoConsume rest (q - lot.qty)
        (lot.qty * lot.unit_cost + r.1, r.2.1, r.2.2)
      else
        (q * lot.unit_cost, 0, { lot with qty := lot.qty - q } :: rest)
    else (0, q, lot :: rest)

/-- Total quantity of a lot queue. -/
def lotsQty (queue : List Lot) : ℚ := (queue.map Lot.qty).sum

/-- Total cost basis of a lot queue. -/
def lotsBasis (queue : List Lot) : ℚ :=
  (queue.map (fun l => l.qty * l.unit_cost)).sum

/-- The guard pattern of `engine.py` line 46:
`x / y if y != 0 else Decimal(0)`. -/
def guardedDiv (a b : ℚ) : Except PyErr ℚ :=
  if b ≠ 0 then pyDiv a b else pure 0

/-- The guard pattern of `engine.py` line 224:
`cost_basis / qty if qty > 0 else 0`. -/
def guardedDivPos (a b : ℚ) : Except PyErr ℚ :=
  if 0 < b then pyDiv a b else pure 0

/-- Price-map store `self.last_known_prices[asset] = p` (`engine.py` lines 73 and 86). -/
def setPrice (s : EngineState) (asset : String) (p : ℚ) : EngineState :=
  { s with last_known_prices := aset s.last_known_prices asset p }

/-- Fiat branch (`engine.py` line 38): update the cash balance only. -/
def processFiat (s : EngineState) (tx : Tx) : EngineState :=
  { s with current_balances := aset s.current_balances tx.asset (agetD s.current_balances tx.asset 0 + tx.amount) }

/-- Lot append of a genuine acquisition (`engine.py` lines 56-66):
ensure the asset's queue exists, append the new lot, update the balance. -/
def addLot (s : EngineState) (tx : Tx) (cost_per_unit : ℚ) : EngineState :=
  { s with
    inventory := aset s.inventory tx.asset (agetD s.inventory tx.asset [] ++ [⟨tx.amount, cost_per_unit, tx.timestamp⟩]),
    current_balances := aset s.current_balances tx.asset (agetD s.current_balances tx.asset 0 + tx.amount) }

/-- Positive-amount branch (`engine.py` lines 41-73): infer unit cost,
append a lot unless classified as a return of transferred funds, and
overwrite the last-known price with `abs(cost_basis_total / amount)`. -/
def processPositive (deposits_as_transfers : Bool) (s : EngineState) (tx : Tx) :
    Except PyErr EngineState := do
  let cost_basis_total := tx.fiat_value.getD 0
  let cost_per_unit ← guardedDiv cost_basis_total tx.amount
  let s :=
    if ¬ classifyPositive deposits_as_transfers tx.type then addLot s tx cost_per_unit
    else s
  if tx.amount ≠ 0 then do
    let p ← pyDiv cost_basis_total tx.amount
    pure (setPrice s tx.asset |p|)
  else pure s

/-- FIFO consumption against the inventory map (`engine.py` lines 116-134):
if the asset is absent nothing is consumed; otherwise run `fifoConsume` on
its queue and store the remaining queue back (the key stays present even
when the queue empties, as for a Python deque).  Returns
`(total_cost_basis, new inventory)`. -/
def consumeFromInventory (inv : List (String × List Lot)) (asset : String)
    (qty_to_sell : ℚ) : ℚ × List (String × List Lot) :=
  match aget inv asset with
  | some queue =>
    let r := fifoConsume queue qty_to_sell
    (r.1, aset inv asset r.2.2)
  | none => (0, inv)

/-- The sale path (`engine.py` lines 114-147): consume inventory, add the
gain to the running total, append the full realized-gain record and define
the local `gain`. -/
def saleStep (s : EngineState) (tx : Tx) : EngineState :=
  let qty_to_sell := |tx.amount|
  let proceeds_total := |tx.fiat_value.getD 0|
  let consumed := consumeFromInventory s.inventory tx.asset qty_to_sell
  let gain := proceeds_total - consumed.1
  { s with
    inventory := consumed.2,
    cumulative_realized_gain := s.cumulative_realized_gain + gain,
    realized_gains := s.realized_gains ++ [GainRecord.full tx.timestamp tx.asset qty_to_sell proceeds_total consumed.1 gain tx.type],
    lastGain := some gain }

/-- The unconditional tail of the negative-amount branch
(`engine.py` lines 149-155): append the short record from the local `gain`
and update the balance. -/
def strayAppend (s : EngineState) (tx : Tx) (g : ℚ) : EngineState :=
  { s with
    realized_gains := s.realized_gains ++ [GainRecord.short tx.timestamp tx.asset g],
    current_balances := aset s.current_balances tx.asset (agetD s.current_balances tx.asset 0 + tx.amount) }

/-- Negative-amount branch (`engine.py` lines 75-155): update the implied
price, classify, run the sale path unless classified as a transfer, then
(unconditionally — the source bug flagged in the spec) append the short
record using the local `gain`, raising `UnboundLocalError` when no disposal
has defined it yet. -/
def processNegative (withdrawals_as_transfers : Bool) (s : EngineState) (tx : Tx) :
    Except PyErr EngineState := do
  let qty_to_sell := |tx.amount|
  let proceeds_total := |tx.fiat_value.getD 0|
  let s ← if qty_to_sell ≠ 0 then do
      let p ← pyDiv proceeds_total qty_to_sell
      pure (setPrice s tx.asset p)
    else pure s
  let s :=
    if classifyNegative withdrawals_as_transfers tx.type then s
    else saleStep s tx
  match s.lastGain with
  | none => Except.error PyErr.unboundLocalError
  | some g => pure (strayAppend s tx g)

/-- Portfolio-metric block run after every transaction
(`engine.py` lines 157-197): totals over the inventory, fiat balances at
1:1 for ZUSD/USD, and the per-asset detail map restricted to non-empty
queues. -/
def mkSnapshot (s : EngineState) (tx : Tx) : Snapshot :=
  let invBasis := (s.inventory.map (fun p => lotsBasis p.2)).sum
  let invMarket :=
    (s.inventory.map (fun p => lotsQty p.2 * agetD s.last_known_prices p.1 0)).sum
  let fiatAdd :=
    ((s.current_balances.filter (fun p => decide (p.1 ∈ ["ZUSD", "USD"]))).map
      (fun p => p.2)).sum
  { timestamp := tx.timestamp,
    total_realized_gain := s.cumulative_realized_gain,
    total_cost_basis := invBasis + fiatAdd,
    total_market_value := invMarket + fiatAdd,
    asset_details := (s.inventory.filter (fun p => ¬ p.2.isEmpty)).map (fun p => (p.1, AssetDetail.mk (lotsQty p.2) (lotsBasis p.2))) }

/-- Append the snapshot of the current state to `portfolio_history`. -/
def appendSnapshot (s : EngineState) (tx : Tx) : EngineState :=
  { s with portfolio_history := s.portfolio_history ++ [mkSnapshot s tx] }

/-- The four-way dispatch of the loop body (`engine.py` lines 34-155):
fiat balance update, positive-amount branch, negative-amount branch, or
(for a zero amount on a non-fiat asset) nothing. -/
def processCore (withdrawals_as_transfers deposits_as_transfers : Bool)
    (s : EngineState) (tx : Tx) : Except PyErr EngineState :=
  if isFiat tx.asset then pure (processFiat s tx)
  else if 0 < tx.amount then processPositive deposits_as_transfers s tx
  else if tx.amount < 0 then processNegative withdrawals_as_transfers s tx
  else pure s

/-- One iteration of the `for tx in self.transactions` loop of
`FIFOEngine.run` (`engine.py` lines 27-197). -/
def processTx (withdrawals_as_transfers deposits_as_transfers : Bool)
    (s : EngineState) (tx : Tx) : Except PyErr EngineState := do
  let s' ← processCore withdrawals_as_transfers deposits_as_transfers s tx
  pure (appendSnapshot s' tx)

/-- Stable insertion of a transaction into an already-sorted list:
the new element goes after every element with timestamp ≤ its own. -/
def insertTx (t : Tx) : List Tx → List Tx
  | [] => [t]
  | x :: xs => if x.timestamp ≤ t.timestamp then x :: insertTx t xs else t :: x :: xs

/-- The sort `sorted(transactions, key=lambda x: x.timestamp)` of
`FIFOEngine.__init__` (`engine.py` line 9): Python's `sorted` is a stable
ascending sort by the key; modelled as stable insertion sort. -/
def sortTxs (txs : List Tx) : List Tx :=
  txs.foldl (fun acc t => insertTx t acc) []

/-- Model of `FIFOEngine.run()` on a fresh engine: fold the loop body over the
timestamp-sorted transactions. -/
def run (txs : List Tx) (withdrawals_as_transfers deposits_as_transfers : Bool) :
    Except PyErr EngineState :=
  (sortTxs txs).foldlM (processTx withdrawals_as_transfers deposits_as_transfers)
    initState

/-- Total lot quantity the engine currently holds for an asset. -/
def invQty (s : EngineState) (asset : String) : ℚ :=
  lotsQty (agetD s.inventory asset [])

/-- Spec-side reference for the quantity balance of one asset (spec §8:
"Sum of per-asset lot quantities after processing equals (genuine
acquisitions − taxable disposals) for that asset, excluding transfers and
'return' acquisitions"): genuine acquisitions add their amount, taxable
disposals subtract the quantity they can actually consume
(`min` with the running balance), everything else leaves it unchanged.
Written from the spec's words, to be compared with the engine. -/
def specDelta (withdrawals_as_transfers deposits_as_transfers : Bool)
    (asset : String) (cur : ℚ) (tx : Tx) : ℚ :=
  if tx.asset = asset ∧ ¬ (isFiat tx.asset : Bool) then
    if 0 < tx.amount then
      if classifyPositive deposits_as_transfers tx.type then cur else cur + tx.amount
    else if tx.amount < 0 then
      if classifyNegative withdrawals_as_transfers tx.type then cur
      else cur - min |tx.amount| cur
    else cur
  else cur

/-- Spec-side running quantity of one asset over a transaction sequence. -/
def specAssetQty (withdrawals_as_transfers deposits_as_transfers : Bool)
    (asset : String) (txs : List Tx) : ℚ :=
  txs.foldl (specDelta withdrawals_as_transfers deposits_as_transfers asset) 0

/-- One row of `get_holdings_summary` (`engine.py` lines 205-231), before
the presentation-boundary conversion to binary floating point. -/
structure HoldingRow where
  asset : String
  quantity : ℚ
  unit_price : ℚ
  market_value : ℚ
  cost_basis : ℚ
  avg_buy_price : ℚ
  unrealized_gain : ℚ
deriving DecidableEq

/-- Model of `FIFOEngine.get_holdings_summary` (`engine.py` lines 205-231): one row
per asset with positive quantity; the average buy price division is guarded
(`float(cost_basis / qty) if qty > 0 else 0.0`). -/
def get_holdings_summary (s : EngineState) : Except PyErr (List HoldingRow) :=
  s.inventory.foldlM (fun rows p => do
    let qty := lotsQty p.2
    if 0 < qty then do
      let cost_basis := lotsBasis p.2
      let price := agetD s.last_known_prices p.1 0
      let market_value := qty * price
      let avg ← guardedDivPos cost_basis qty
      pure (rows ++ [HoldingRow.mk p.1 qty price market_value cost_basis avg (market_value - cost_basis)])
    else pure rows) []

/-! ## Association-list and lot-arithmetic lemmas -/

theorem aget_aset {α : Type} (m : List (String × α)) (k k' : String) (v : α) :
    aget (aset m k v) k' = if k = k' then some v else aget m k' := by
  induction m with
  | nil => simp [aset, aget]
  | cons hd tl ih =>
    obtain ⟨k0, v0⟩ := hd
    by_cases h0 : k0 = k
    · subst h0
      by_cases h1 : k0 = k'
      · subst h1; simp [aset, aget]
      · simp [aset, aget, h1]
    · by_cases h1 : k0 = k'
      · subst h1
        have hk : ¬ k = k0 := fun h => h0 h.symm
        simp [aset, aget, h0, hk]
      · simp [aset, aget, h0, h1, ih]

theorem aget_aset_self {α : Type} (m : List (String × α)) (k : String) (v : α) :
    aget (aset m k v) k = some v := by
  simp [aget_aset]

theorem aget_aset_ne {α : Type} (m : List (String × α)) (k k' : String) (v : α)
    (h : k ≠ k') : aget (aset m k v) k' = aget m k' := by
  simp [aget_aset, h]

theorem lotsQty_append (q q' : List Lot) : lotsQty (q ++ q') = lotsQty q + lotsQty q' := by
  simp [lotsQty]

theorem lotsBasis_append (q q' : List Lot) :
    lotsBasis (q ++ q') = lotsBasis q + lotsBasis q' := by
  simp [lotsBasis]

theorem lotsQty_nonneg (q : List Lot) (h : ∀ l ∈ q, 0 < l.qty) : 0 ≤ lotsQty q := by
  apply List.sum_nonneg
  intro x hx
  simp only [List.mem_map] at hx
  obtain ⟨l, hl, rfl⟩ := hx
  exact le_of_lt (h l hl)

/-! ## FIFO consumption lemmas -/

theorem fifoConsume_basis (q : List Lot) (x : ℚ) :
    (fifoConsume q x).1 = lotsBasis q - lotsBasis (fifoConsume q x).2.2 := by
  induction q generalizing x with
  | nil => simp [fifoConsume, lotsBasis]
  | cons lot rest ih =>
    by_cases h1 : 0 < x
    · by_cases h2 : lot.qty ≤ x
      · have := ih (x - lot.qty)
        simp only [fifoConsume, if_pos h1, if_pos h2, lotsBasis, List.map_cons, List.sum_cons]
        simp only [lotsBasis] at this
        linarith
      · simp only [fifoConsume, if_pos h1, if_neg h2, lotsBasis, List.map_cons, List.sum_cons]
        ring
    · simp [fifoConsume, if_neg h1, lotsBasis]

theorem fifoConsume_qty (q : List Lot) (x : ℚ) :
    lotsQty (fifoConsume q x).2.2 = lotsQty q - (x - (fifoConsume q x).2.1) := by
  induction q generalizing x with
  | nil => simp [fifoConsume, lotsQty]
  | cons lot rest ih =>
    by_cases h1 : 0 < x
    · by_cases h2 : lot.qty ≤ x
      · have := ih (x - lot.qty)
        simp only [fifoConsume, if_pos h1, if_pos h2, lotsQty, List.map_cons, List.sum_cons]
        simp only [lotsQty] at this
        linarith
      · simp only [fifoConsume, if_pos h1, if_neg h2, lotsQty, List.map_cons, List.sum_cons]
        ring
    · simp [fifoConsume, if_neg h1, lotsQty]

theorem fifoConsume_left (q : List Lot) (x : ℚ) (hx : 0 ≤ x)
    (hpos : ∀ l ∈ q, 0 < l.qty) :
    (fifoConsume q x).2.1 = max 0 (x - lotsQty q) := by
  induction q generalizing x with
  | nil =>
    simp only [fifoConsume, lotsQty, List.map_nil, List.sum_nil, sub_zero]
    exact (max_eq_right hx).symm
  | cons lot rest ih =>
    have hlot : 0 < lot.qty := hpos lot (List.mem_cons_self _ _)
    have hrest : ∀ l ∈ rest, 0 < l.qty := fun l hl => hpos l (List.mem_cons_of_mem _ hl)
    have hrq : 0 ≤ lotsQty rest := lotsQty_nonneg rest hrest
    by_cases h1 : 0 < x
    · by_cases h2 : lot.qty ≤ x
      · have := ih (x - lot.qty) (by linarith) hrest
        simp only [fifoConsume, if_pos h1, if_pos h2, lotsQty, List.map_cons, List.sum_cons]
        simp only [lotsQty] at this
        rw [this]
        congr 1
        ring
      · push_neg at h2
        simp only [fifoConsume, if_pos h1, if_neg (not_le.mpr h2), lotsQty, List.map_cons,
          List.sum_cons]
        have : x - (lot.qty + lotsQty rest) ≤ 0 := by linarith
        simp only [lotsQty] at this
        exact (max_eq_left this).symm
    · have hx0 : x = 0 := le_antisymm (not_lt.mp h1) hx
      subst hx0
      simp only [fifoConsume, if_neg h1, lotsQty, List.map_cons, List.sum_cons]
      have : (0 : ℚ) - (lot.qty + (lotsQty rest)) ≤ 0 := by linarith
      simp only [lotsQty] at this
      exact (max_eq_left this).symm

theorem fifoConsume_pos (q : List Lot) (x : ℚ) (hpos : ∀ l ∈ q, 0 < l.qty) :
    ∀ l ∈ (fifoConsume q x).2.2, 0 < l.qty := by
  induction q generalizing x with
  | nil => simp [fifoConsume]
  | cons lot rest ih =>
    have hlot : 0 < lot.qty := hpos lot (List.mem_cons_self _ _)
    have hrest : ∀ l ∈ rest, 0 < l.qty := fun l hl => hpos l (List.mem_cons_of_mem _ hl)
    by_cases h1 : 0 < x
    · by_cases h2 : lot.qty ≤ x
      · simpa only [fifoConsume, if_pos h1, if_pos h2] using ih (x - lot.qty) hrest
      · push_neg at h2
        simp only [fifoConsume, if_pos h1, if_neg (not_le.mpr h2)]
        intro l hl
        rcases List.mem_cons.mp hl with h | h
        · subst h; simpa using sub_pos.mpr h2
        · exact hrest l h
    · simp only [fifoConsume, if_neg h1]
      intro l hl
      exact hpos l hl

theorem fifoConsume_structure (q : List Lot) (x : ℚ) :
    ∃ k, (fifoConsume q x).2.2 = q.drop k ∨
      ∃ hd tl r, q.drop k = hd :: tl ∧ 0 < r ∧ r < hd.qty ∧
        (fifoConsume q x).2.2 = Lot.mk r hd.unit_cost hd.date :: tl := by
  induction q generalizing x with
  | nil => exact ⟨0, Or.inl (by simp [fifoConsume])⟩
  | cons lot rest ih =>
    by_cases h1 : 0 < x
    · by_cases h2 : lot.qty ≤ x
      · obtain ⟨k, hk⟩ := ih (x - lot.qty)
        refine ⟨k + 1, ?_⟩
        simpa only [fifoConsume, if_pos h1, if_pos h2, List.drop_succ_cons] using hk
      · push_neg at h2
        refine ⟨0, Or.inr ⟨lot, rest, lot.qty - x, by simp, by linarith, by linarith, ?_⟩⟩
        simp [fifoConsume, if_pos h1, if_neg (not_le.mpr h2)]
    · exact ⟨0, Or.inl (by simp [fifoConsume, if_neg h1])⟩

/-- Quantity actually consumed equals `min` of the request and what is held. -/
theorem fifoConsume_consumed (q : List Lot) (x : ℚ) (hx : 0 ≤ x)
    (hpos : ∀ l ∈ q, 0 < l.qty) :
    lotsQty (fifoConsume q x).2.2 = lotsQty q - min x (lotsQty q) := by
  rw [fifoConsume_qty, fifoConsume_left q x hx hpos]
  rcases le_total x (lotsQty q) with h | h
  · rw [max_eq_left (by linarith), min_eq_left h]
    ring
  · rw [max_eq_right (by linarith), min_eq_right h]
    ring

/-! ## Reduction lemmas for `Except` and the loop-body pieces -/

theorem exc_pure {ε α : Type} (x : α) : (pure x : Except ε α) = Except.ok x := rfl

theorem exc_ok_bind {ε α β : Type} (x : α) (f : α → Except ε β) :
    (Except.ok x : Except ε α) >>= f = f x := rfl

theorem exc_error_bind {ε α β : Type} (e : ε) (f : α → Except ε β) :
    (Except.error e : Except ε α) >>= f = Except.error e := rfl

theorem pyDiv_ok (a b : ℚ) (h : b ≠ 0) : pyDiv a b = Except.ok (a / b) := by
  simp [pyDiv, h]

theorem guardedDiv_ok (a b : ℚ) :
    guardedDiv a b = Except.ok (if b = 0 then 0 else a / b) := by
  by_cases h : b = 0
  · simp [guardedDiv, h, exc_pure]
  · simp [guardedDiv, pyDiv, h]

theorem guardedDivPos_ok (a b : ℚ) :
    guardedDivPos a b = Except.ok (if 0 < b then a / b else 0) := by
  by_cases h : 0 < b
  · simp [guardedDivPos, pyDiv, h, ne_of_gt h]
  · simp [guardedDivPos, h, exc_pure]

@[simp] theorem setPrice_inventory (s : EngineState) (a : String) (p : ℚ) :
    (setPrice s a p).inventory = s.inventory := rfl

@[simp] theorem setPrice_gains (s : EngineState) (a : String) (p : ℚ) :
    (setPrice s a p).realized_gains = s.realized_gains := rfl

@[simp] theorem setPrice_history (s : EngineState) (a : String) (p : ℚ) :
    (setPrice s a p).portfolio_history = s.portfolio_history := rfl

@[simp] theorem setPrice_cumulative (s : EngineState) (a : String) (p : ℚ) :
    (setPrice s a p).cumulative_realized_gain = s.cumulative_realized_gain := rfl

@[simp] theorem setPrice_lastGain (s : EngineState) (a : String) (p : ℚ) :
    (setPrice s a p).lastGain = s.lastGain := rfl

@[simp] theorem setPrice_prices (s : EngineState) (a : String) (p : ℚ) :
    (setPrice s a p).last_known_prices = aset s.last_known_prices a p := rfl

@[simp] theorem addLot_inventory (s : EngineState) (tx : Tx) (c : ℚ) :
    (addLot s tx c).inventory =
      aset s.inventory tx.asset (agetD s.inventory tx.asset [] ++ [⟨tx.amount, c, tx.timestamp⟩]) := rfl

@[simp] theorem addLot_prices (s : EngineState) (tx : Tx) (c : ℚ) :
    (addLot s tx c).last_known_prices = s.last_known_prices := rfl

@[simp] theorem addLot_gains (s : EngineState) (tx : Tx) (c : ℚ) :
    (addLot s tx c).realized_gains = s.realized_gains := rfl

@[simp] theorem addLot_history (s : EngineState) (tx : Tx) (c : ℚ) :
    (addLot s tx c).portfolio_history = s.portfolio_history := rfl

@[simp] theorem addLot_cumulative (s : EngineState) (tx : Tx) (c : ℚ) :
    (addLot s tx c).cumulative_realized_gain = s.cumulative_realized_gain := rfl

@[simp] theorem addLot_lastGain (s : EngineState) (tx : Tx) (c : ℚ) :
    (addLot s tx c).lastGain = s.lastGain := rfl

@[simp] theorem saleStep_inventory (s : EngineState) (tx : Tx) :
    (saleStep s tx).inventory = (consumeFromInventory s.inventory tx.asset |tx.amount|).2 := rfl

@[simp] theorem saleStep_history (s : EngineState) (tx : Tx) :
    (saleStep s tx).portfolio_history = s.portfolio_history := rfl

@[simp] theorem saleStep_prices (s : EngineState) (tx : Tx) :
    (saleStep s tx).last_known_prices = s.last_known_prices := rfl

@[simp] theorem saleStep_lastGain (s : EngineState) (tx : Tx) :
    (saleStep s tx).lastGain =
      some (|tx.fiat_value.getD 0| - (consumeFromInventory s.inventory tx.asset |tx.amount|).1) := rfl

@[simp] theorem saleStep_cumulative (s : EngineState) (tx : Tx) :
    (saleStep s tx).cumulative_realized_gain = s.cumulative_realized_gain +
      (|tx.fiat_value.getD 0| - (consumeFromInventory s.inventory tx.asset |tx.amount|).1) := rfl

@[simp] theorem saleStep_gains (s : EngineState) (tx : Tx) :
    (saleStep s tx).realized_gains = s.realized_gains ++
      [GainRecord.full tx.timestamp tx.asset |tx.amount| |tx.fiat_value.getD 0|
        (consumeFromInventory s.inventory tx.asset |tx.amount|).1
        (|tx.fiat_value.getD 0| - (consumeFromInventory s.inventory tx.asset |tx.amount|).1)
        tx.type] := rfl

@[simp] theorem strayAppend_inventory (s : EngineState) (tx : Tx) (g : ℚ) :
    (strayAppend s tx g).inventory = s.inventory := rfl

@[simp] theorem strayAppend_history (s : EngineState) (tx : Tx) (g : ℚ) :
    (strayAppend s tx g).portfolio_history = s.portfolio_history := rfl

@[simp] theorem strayAppend_prices (s : EngineState) (tx : Tx) (g : ℚ) :
    (strayAppend s tx g).last_known_prices = s.last_known_prices := rfl

@[simp] theorem strayAppend_cumulative (s : EngineState) (tx : Tx) (g : ℚ) :
    (strayAppend s tx g).cumulative_realized_gain = s.cumulative_realized_gain := rfl

@[simp] theorem strayAppend_gains (s : EngineState) (tx : Tx) (g : ℚ) :
    (strayAppend s tx g).realized_gains =
      s.realized_gains ++ [GainRecord.short tx.timestamp tx.asset g] := rfl

@[simp] theorem processFiat_inventory (s : EngineState) (tx : Tx) :
    (processFiat s tx).inventory = s.inventory := rfl

@[simp] theorem processFiat_history (s : EngineState) (tx : Tx) :
    (processFiat s tx).portfolio_history = s.portfolio_history := rfl

@[simp] theorem processFiat_gains (s : EngineState) (tx : Tx) :
    (processFiat s tx).realized_gains = s.realized_gains := rfl

@[simp] theorem processFiat_cumulative (s : EngineState) (tx : Tx) :
    (processFiat s tx).cumulative_realized_gain = s.cumulative_realized_gain := rfl

@[simp] theorem appendSnapshot_inventory (s : EngineState) (tx : Tx) :
    (appendSnapshot s tx).inventory = s.inventory := rfl

@[simp] theorem appendSnapshot_prices (s : EngineState) (tx : Tx) :
    (appendSnapshot s tx).last_known_prices = s.last_known_prices := rfl

@[simp] theorem appendSnapshot_gains (s : EngineState) (tx : Tx) :
    (appendSnapshot s tx).realized_gains = s.realized_gains := rfl

@[simp] theorem appendSnapshot_cumulative (s : EngineState) (tx : Tx) :
    (appendSnapshot s tx).cumulative_realized_gain = s.cumulative_realized_gain := rfl

@[simp] theorem appendSnapshot_history (s : EngineState) (tx : Tx) :
    (appendSnapshot s tx).portfolio_history = s.portfolio_history ++ [mkSnapshot s tx] := rfl

@[simp] theorem mkSnapshot_timestamp (s : EngineState) (tx : Tx) :
    (mkSnapshot s tx).timestamp = tx.timestamp := rfl

theorem processPositive_eq (d : Bool) (s : EngineState) (tx : Tx) (h : tx.amount ≠ 0) :
    processPositive d s tx =
      Except.ok (setPrice
        (if ¬ classifyPositive d tx.type then addLot s tx (tx.fiat_value.getD 0 / tx.amount) else s)
        tx.asset |tx.fiat_value.getD 0 / tx.amount|) := by
  simp [processPositive, guardedDiv_ok, pyDiv_ok, h, exc_ok_bind, exc_pure]

theorem processPositive_eq0 (d : Bool) (s : EngineState) (tx : Tx) (h : tx.amount = 0) :
    processPositive d s tx =
      Except.ok (if ¬ classifyPositive d tx.type then addLot s tx 0 else s) := by
  simp [processPositive, guardedDiv_ok, h, exc_ok_bind, exc_pure]

theorem processPositive_isOk (d : Bool) (s : EngineState) (tx : Tx) :
    ∃ s', processPositive d s tx = Except.ok s' := by
  by_cases h : tx.amount = 0
  · exact ⟨_, processPositive_eq0 d s tx h⟩
  · exact ⟨_, processPositive_eq d s tx h⟩

theorem processNegative_eq (w : Bool) (s : EngineState) (tx : Tx) (h : tx.amount < 0) :
    processNegative w s tx =
      (let s1 := setPrice s tx.asset (|tx.fiat_value.getD 0| / |tx.amount|)
       let s2 := if classifyNegative w tx.type then s1 else saleStep s1 tx
       match s2.lastGain with
       | none => Except.error PyErr.unboundLocalError
       | some g => Except.ok (strayAppend s2 tx g)) := by
  have habs : |tx.amount| ≠ 0 := abs_ne_zero.mpr (ne_of_lt h)
  simp [processNegative, pyDiv_ok, habs, exc_ok_bind, exc_pure]

theorem processNegative_transfer (w : Bool) (s : EngineState) (tx : Tx)
    (h : tx.amount < 0) (hc : classifyNegative w tx.type = true) :
    processNegative w s tx =
      (match s.lastGain with
       | none => Except.error PyErr.unboundLocalError
       | some g =>
         Except.ok (strayAppend (setPrice s tx.asset (|tx.fiat_value.getD 0| / |tx.amount|)) tx g)) := by
  rw [processNegative_eq w s tx h]
  simp only [hc, if_true, setPrice_lastGain]

theorem processNegative_disposal (w : Bool) (s : EngineState) (tx : Tx)
    (h : tx.amount < 0) (hc : classifyNegative w tx.type = false) :
    processNegative w s tx =
      Except.ok (strayAppend
        (saleStep (setPrice s tx.asset (|tx.fiat_value.getD 0| / |tx.amount|)) tx) tx
        (|tx.fiat_value.getD 0| - (consumeFromInventory s.inventory tx.asset |tx.amount|).1)) := by
  rw [processNegative_eq w s tx h]
  simp only [hc, if_false, Bool.false_eq_true, saleStep_lastGain, setPrice_inventory]

theorem processNegative_error (w : Bool) (s : EngineState) (tx : Tx) (e : PyErr)
    (h : processNegative w s tx = Except.error e) : e = PyErr.unboundLocalError := by
  by_cases habs : |tx.amount| = 0
  · simp only [processNegative, habs, ne_eq, not_true_eq_false, if_false, Bool.false_eq_true,
      exc_pure, exc_ok_bind] at h
    split at h <;> simp_all
  · simp only [processNegative, ne_eq, habs, not_false_eq_true, if_true,
      pyDiv_ok _ _ habs, exc_ok_bind, exc_pure] at h
    split at h <;> simp_all

theorem processCore_history (w d : Bool) (s : EngineState) (tx : Tx) (s' : EngineState)
    (h : processCore w d s tx = Except.ok s') :
    s'.portfolio_history = s.portfolio_history := by
  unfold processCore at h
  split_ifs at h with h1 h2 h3
  · rw [exc_pure] at h; cases h; simp
  · by_cases h0 : classifyPositive d tx.type
    · rw [processPositive_eq d s tx (ne_of_gt h2)] at h
      cases h; simp [h0]
    · rw [processPositive_eq d s tx (ne_of_gt h2)] at h
      cases h; simp [h0]
  · cases hc : classifyNegative w tx.type
    · rw [processNegative_disposal w s tx h3 hc] at h
      cases h; simp
    · rw [processNegative_transfer w s tx h3 hc] at h
      split at h
      · cases h
      · cases h; simp
  · rw [exc_pure] at h; cases h; rfl

theorem processCore_error (w d : Bool) (s : EngineState) (tx : Tx) (e : PyErr)
    (h : processCore w d s tx = Except.error e) : e = PyErr.unboundLocalError := by
  unfold processCore at h
  split_ifs at h with h1 h2 h3
  · rw [exc_pure] at h; cases h
  · obtain ⟨s', hs'⟩ := processPositive_isOk d s tx
    rw [hs'] at h; cases h
  · exact processNegative_error w s tx e h
  · rw [exc_pure] at h; cases h

theorem processTx_ok_iff (w d : Bool) (s : EngineState) (tx : Tx) (s' : EngineState) :
    processTx w d s tx = Except.ok s' ↔
      ∃ s1, processCore w d s tx = Except.ok s1 ∧ s' = appendSnapshot s1 tx := by
  constructor
  · intro h
    unfold processTx at h
    cases hc : processCore w d s tx with
    | error e => rw [hc, exc_error_bind] at h; cases h
    | ok s1 =>
      rw [hc, exc_ok_bind, exc_pure] at h
      cases h
      exact ⟨s1, rfl, rfl⟩
  · rintro ⟨s1, h1, rfl⟩
    unfold processTx
    rw [h1, exc_ok_bind, exc_pure]

theorem processTx_error_iff (w d : Bool) (s : EngineState) (tx : Tx) (e : PyErr) :
    processTx w d s tx = Except.error e ↔ processCore w d s tx = Except.error e := by
  constructor
  · intro h
    unfold processTx at h
    cases hc : processCore w d s tx with
    | error e' => rw [hc, exc_error_bind] at h; exact h
    | ok s1 => rw [hc, exc_ok_bind, exc_pure] at h; cases h
  · intro h
    unfold processTx
    rw [h, exc_error_bind]

theorem processTx_error (w d : Bool) (s : EngineState) (tx : Tx) (e : PyErr)
    (h : processTx w d s tx = Except.error e) : e = PyErr.unboundLocalError :=
  processCore_error w d s tx e ((processTx_error_iff w d s tx e).mp h)

theorem processTx_history (w d : Bool) (s : EngineState) (tx : Tx) (s' : EngineState)
    (h : processTx w d s tx = Except.ok s') :
    ∃ s1, s'.portfolio_history = s.portfolio_history ++ [mkSnapshot s1 tx] := by
  obtain ⟨s1, h1, rfl⟩ := (processTx_ok_iff w d s tx s').mp h
  refine ⟨s1, ?_⟩
  rw [appendSnapshot_history, processCore_history w d s tx s1 h1]

/-! ## `foldlM` machinery over `Except` -/

theorem foldlM_except_nil {σ τ : Type} (f : σ → τ → Except PyErr σ) (s : σ) :
    List.foldlM f s [] = Except.ok s := rfl

theorem foldlM_except_cons {σ τ : Type} (f : σ → τ → Except PyErr σ) (s : σ)
    (t : τ) (ts : List τ) :
    List.foldlM f s (t :: ts) = f s t >>= fun s1 => List.foldlM f s1 ts := rfl

theorem foldlM_inv {σ τ : Type} (f : σ → τ → Except PyErr σ) (P : σ → Prop)
    (hstep : ∀ s t s', P s → f s t = Except.ok s' → P s') :
    ∀ (l : List τ) (s s' : σ), P s → List.foldlM f s l = Except.ok s' → P s'
  | [], s, s', hP, h => by
    rw [foldlM_except_nil] at h; cases h; exact hP
  | t :: ts, s, s', hP, h => by
    rw [foldlM_except_cons] at h
    cases hc : f s t with
    | error e => rw [hc, exc_error_bind] at h; cases h
    | ok s1 =>
      rw [hc, exc_ok_bind] at h
      exact foldlM_inv f P hstep ts s1 s' (hstep s t s1 hP hc) h

theorem foldlM_error_shape {σ τ : Type} (f : σ → τ → Except PyErr σ)
    (hstep : ∀ s t e, f s t = Except.error e → e = PyErr.unboundLocalError) :
    ∀ (l : List τ) (s : σ) (e : PyErr),
      List.foldlM f s l = Except.error e → e = PyErr.unboundLocalError
  | [], s, e, h => by rw [foldlM_except_nil] at h; cases h
  | t :: ts, s, e, h => by
    rw [foldlM_except_cons] at h
    cases hc : f s t with
    | error e' =>
      rw [hc, exc_error_bind] at h
      cases h
      exact hstep s t e hc
    | ok s1 =>
      rw [hc, exc_ok_bind] at h
      exact foldlM_error_shape f hstep ts s1 e h

theorem foldlM_run_history (w d : Bool) :
    ∀ (l : List Tx) (s s' : EngineState),
      List.foldlM (processTx w d) s l = Except.ok s' →
      s'.portfolio_history.map Snapshot.timestamp =
        s.portfolio_history.map Snapshot.timestamp ++ l.map Tx.timestamp
  | [], s, s', h => by rw [foldlM_except_nil] at h; cases h; simp
  | t :: ts, s, s', h => by
    rw [foldlM_except_cons] at h
    cases hc : processTx w d s t with
    | error e => rw [hc, exc_error_bind] at h; cases h
    | ok s1 =>
      rw [hc, exc_ok_bind] at h
      obtain ⟨s0, hist⟩ := processTx_history w d s t s1 hc
      have := foldlM_run_history w d ts s1 s' h
      rw [this, hist]
      simp

/-! ## Stable-sort lemmas -/

theorem mem_insertTx (t a : Tx) (l : List Tx) :
    a ∈ insertTx t l ↔ a = t ∨ a ∈ l := by
  induction l with
  | nil => simp [insertTx]
  | cons x xs ih =>
    by_cases h : x.timestamp ≤ t.timestamp
    · simp only [insertTx, if_pos h, List.mem_cons, ih]
      tauto
    · simp only [insertTx, if_neg h, List.mem_cons]

theorem insertTx_length (t : Tx) (l : List Tx) :
    (insertTx t l).length = l.length + 1 := by
  induction l with
  | nil => simp [insertTx]
  | cons x xs ih =>
    by_cases h : x.timestamp ≤ t.timestamp <;> simp [insertTx, h, ih]

theorem insertTx_sorted (t : Tx) (l : List Tx)
    (h : l.Pairwise (fun a b => a.timestamp ≤ b.timestamp)) :
    (insertTx t l).Pairwise (fun a b => a.timestamp ≤ b.timestamp) := by
  induction l with
  | nil => simp [insertTx]
  | cons x xs ih =>
    rw [List.pairwise_cons] at h
    obtain ⟨hx, hxs⟩ := h
    by_cases hle : x.timestamp ≤ t.timestamp
    · rw [insertTx, if_pos hle, List.pairwise_cons]
      refine ⟨?_, ih hxs⟩
      intro a ha
      rcases (mem_insertTx t a xs).mp ha with rfl | ha
      · exact hle
      · exact hx a ha
    · rw [insertTx, if_neg hle, List.pairwise_cons]
      push_neg at hle
      refine ⟨?_, List.pairwise_cons.mpr ⟨hx, hxs⟩⟩
      intro a ha
      rcases List.mem_cons.mp ha with rfl | ha
      · exact le_of_lt hle
      · exact le_trans (le_of_lt hle) (hx a ha)

theorem insertTx_filter (t : Tx) (l : List Tx) (c : Nat)
    (h : l.Pairwise (fun a b => a.timestamp ≤ b.timestamp)) :
    (insertTx t l).filter (fun x => decide (x.timestamp = c)) =
      (if t.timestamp = c
        then l.filter (fun x => decide (x.timestamp = c)) ++ [t]
        else l.filter (fun x => decide (x.timestamp = c))) := by
  induction l with
  | nil => by_cases hc : t.timestamp = c <;> simp [insertTx, hc]
  | cons x xs ih =>
    rw [List.pairwise_cons] at h
    obtain ⟨hx, hxs⟩ := h
    by_cases hle : x.timestamp ≤ t.timestamp
    · rw [insertTx, if_pos hle]
      by_cases hxc : x.timestamp = c <;> by_cases htc : t.timestamp = c <;>
        simp [List.filter_cons, hxc, htc, ih hxs]
    · rw [insertTx, if_neg hle]
      push_neg at hle
      by_cases htc : t.timestamp = c
      · have hnil : (x :: xs).filter (fun y => decide (y.timestamp = c)) = [] := by
          rw [List.filter_eq_nil_iff]
          intro y hy
          rcases List.mem_cons.mp hy with rfl | hy
          · simp only [decide_eq_true_eq]
            omega
          · have := hx y hy
            simp only [decide_eq_true_eq]
            omega
        simp [List.filter_cons, htc, hnil]
      · simp [List.filter_cons, htc]

theorem sortTxs_go_sorted :
    ∀ (l : List Tx) (acc : List Tx),
      acc.Pairwise (fun a b => a.timestamp ≤ b.timestamp) →
      (List.foldl (fun acc t => insertTx t acc) acc l).Pairwise
        (fun a b => a.timestamp ≤ b.timestamp)
  | [], _, h => h
  | t :: ts, acc, h =>
    sortTxs_go_sorted ts (insertTx t acc) (insertTx_sorted t acc h)

theorem sortTxs_go_filter :
    ∀ (l : List Tx) (acc : List Tx) (c : Nat),
      acc.Pairwise (fun a b => a.timestamp ≤ b.timestamp) →
      (List.foldl (fun acc t => insertTx t acc) acc l).filter
          (fun x => decide (x.timestamp = c)) =
        acc.filter (fun x => decide (x.timestamp = c)) ++
          l.filter (fun x => decide (x.timestamp = c))
  | [], acc, c, _ => by simp
  | t :: ts, acc, c, h => by
    have := sortTxs_go_filter ts (insertTx t acc) c (insertTx_sorted t acc h)
    simp only [List.foldl_cons, this, insertTx_filter t acc c h, List.filter_cons]
    by_cases htc : t.timestamp = c <;> simp [htc]

theorem sortTxs_go_length :
    ∀ (l : List Tx) (acc : List Tx),
      (List.foldl (fun acc t => insertTx t acc) acc l).length = acc.length + l.length
  | [], _ => by simp
  | t :: ts, acc => by
    simp only [List.foldl_cons, sortTxs_go_length ts (insertTx t acc), insertTx_length,
      List.length_cons]
    omega

theorem sortTxs_sorted (txs : List Tx) :
    (sortTxs txs).Pairwise (fun a b => a.timestamp ≤ b.timestamp) :=
  sortTxs_go_sorted txs [] List.Pairwise.nil

theorem sortTxs_filter (txs : List Tx) (c : Nat) :
    (sortTxs txs).filter (fun x => decide (x.timestamp = c)) =
      txs.filter (fun x => decide (x.timestamp = c)) := by
  have := sortTxs_go_filter txs [] c List.Pairwise.nil
  simpa [sortTxs] using this

theorem sortTxs_length (txs : List Tx) : (sortTxs txs).length = txs.length := by
  have := sortTxs_go_length txs []
  simpa [sortTxs] using this

/-! ## Inventory positivity and the per-asset quantity balance -/

theorem aget_mem {α : Type} : ∀ (m : List (String × α)) (k : String) (v : α),
    aget m k = some v → (k, v) ∈ m
  | [], _, _, h => by cases h
  | (k0, v0) :: rest, k, v, h => by
    by_cases h0 : k0 = k
    · subst h0
      rw [aget, if_pos rfl] at h
      cases h
      exact List.mem_cons_self _ _
    · rw [aget, if_neg h0] at h
      exact List.mem_cons_of_mem _ (aget_mem rest k v h)

theorem mem_aset {α : Type} : ∀ (m : List (String × α)) (k : String) (v : α)
    (p : String × α), p ∈ aset m k v → p ∈ m ∨ p = (k, v)
  | [], k, v, p, h => by
    rw [aset] at h
    rcases List.mem_singleton.mp h with rfl
    exact Or.inr rfl
  | (k0, v0) :: rest, k, v, p, h => by
    by_cases h0 : k0 = k
    · subst h0
      rw [aset, if_pos rfl] at h
      rcases List.mem_cons.mp h with rfl | h
      · exact Or.inr rfl
      · exact Or.inl (List.mem_cons_of_mem _ h)
    · rw [aset, if_neg h0] at h
      rcases List.mem_cons.mp h with rfl | h
      · exact Or.inl (List.mem_cons_self _ _)
      · rcases mem_aset rest k v p h with h | h
        · exact Or.inl (List.mem_cons_of_mem _ h)
        · exact Or.inr h

theorem lotsQty_pos (q : List Lot) (hne : q ≠ []) (hpos : ∀ l ∈ q, 0 < l.qty) :
    0 < lotsQty q := by
  cases q with
  | nil => exact absurd rfl hne
  | cons l rest =>
    have h1 : 0 < l.qty := hpos l (List.mem_cons_self _ _)
    have h2 : 0 ≤ lotsQty rest :=
      lotsQty_nonneg rest (fun x hx => hpos x (List.mem_cons_of_mem _ hx))
    simp only [lotsQty, List.map_cons, List.sum_cons]
    simp only [lotsQty] at h2
    linarith

/-- All lots stored anywhere in the inventory have strictly positive
quantity. -/
def LotsPos (s : EngineState) : Prop :=
  ∀ p ∈ s.inventory, ∀ l ∈ p.2, 0 < l.qty

theorem LotsPos_aget (s : EngineState) (k : String) (q : List Lot)
    (hP : LotsPos s) (h : aget s.inventory k = some q) : ∀ l ∈ q, 0 < l.qty :=
  hP (k, q) (aget_mem s.inventory k q h)

theorem LotsPos_of_inventory_eq (s s' : EngineState)
    (h : s'.inventory = s.inventory) (hP : LotsPos s) : LotsPos s' := by
  unfold LotsPos at *
  rw [h]
  exact hP

theorem invQty_of_inventory_eq (s s' : EngineState) (a : String)
    (h : s'.inventory = s.inventory) : invQty s' a = invQty s a := by
  unfold invQty
  rw [h]

theorem specDelta_fiat (w d : Bool) (a : String) (cur : ℚ) (tx : Tx)
    (h : isFiat tx.asset = true) : specDelta w d a cur tx = cur := by
  unfold specDelta
  rw [if_neg]
  rintro ⟨_, hn⟩
  exact hn h

theorem specDelta_other_asset (w d : Bool) (a : String) (cur : ℚ) (tx : Tx)
    (h : tx.asset ≠ a) : specDelta w d a cur tx = cur := by
  unfold specDelta
  rw [if_neg]
  rintro ⟨he, _⟩
  exact h he

theorem specDelta_zero (w d : Bool) (a : String) (cur : ℚ) (tx : Tx)
    (h : tx.amount = 0) : specDelta w d a cur tx = cur := by
  unfold specDelta
  split_ifs with h1 h2 h3 <;> first | rfl | (exfalso; rw [h] at *; simp_all)

theorem specDelta_pos (w d : Bool) (a : String) (cur : ℚ) (tx : Tx)
    (he : tx.asset = a) (hf : isFiat tx.asset = false) (h0 : 0 < tx.amount) :
    specDelta w d a cur tx =
      (if classifyPositive d tx.type then cur else cur + tx.amount) := by
  unfold specDelta
  rw [if_pos ⟨he, by simp [hf]⟩, if_pos h0]

theorem specDelta_neg (w d : Bool) (a : String) (cur : ℚ) (tx : Tx)
    (he : tx.asset = a) (hf : isFiat tx.asset = false) (h0 : tx.amount < 0) :
    specDelta w d a cur tx =
      (if classifyNegative w tx.type then cur else cur - min |tx.amount| cur) := by
  unfold specDelta
  rw [if_pos ⟨he, by simp [hf]⟩, if_neg (by linarith), if_pos h0]

theorem consumeFromInventory_qty (inv : List (String × List Lot)) (A : String)
    (x : ℚ) (hx : 0 ≤ x) (hP : ∀ p ∈ inv, ∀ l ∈ p.2, 0 < l.qty) (a : String) :
    lotsQty (agetD (consumeFromInventory inv A x).2 a []) =
      (if A = a
        then lotsQty (agetD inv a []) - min x (lotsQty (agetD inv a []))
        else lotsQty (agetD inv a [])) := by
  unfold consumeFromInventory
  cases hq : aget inv A with
  | none =>
    simp only []
    by_cases hAa : A = a
    · subst hAa
      simp only [if_pos rfl, agetD, hq, Option.getD_none]
      have : lotsQty ([] : List Lot) = 0 := rfl
      rw [this, min_eq_right (by linarith [hx] : (0:ℚ) ≤ x)]
      · simp
    · simp [hAa]
  | some queue =>
    simp only []
    by_cases hAa : A = a
    · subst hAa
      have hposq : ∀ l ∈ queue, 0 < l.qty := hP (A, queue) (aget_mem inv A queue hq)
      simp only [if_pos rfl, agetD, aget_aset_self, Option.getD_some, hq]
      exact fifoConsume_consumed queue x hx hposq
    · simp only [if_neg hAa, agetD, aget_aset_ne inv A a _ hAa]

theorem consumeFromInventory_pos (inv : List (String × List Lot)) (A : String)
    (x : ℚ) (hP : ∀ p ∈ inv, ∀ l ∈ p.2, 0 < l.qty) :
    ∀ p ∈ (consumeFromInventory inv A x).2, ∀ l ∈ p.2, 0 < l.qty := by
  unfold consumeFromInventory
  cases hq : aget inv A with
  | none => exact hP
  | some queue =>
    simp only []
    intro p hp
    rcases mem_aset inv A _ p hp with hp | rfl
    · exact hP p hp
    · exact fifoConsume_pos queue x (hP (A, queue) (aget_mem inv A queue hq))

theorem processCore_invQty (w d : Bool) (a : String) (ha : isFiat a = false)
    (s : EngineState) (tx : Tx) (s1 : EngineState)
    (hP : LotsPos s) (h : processCore w d s tx = Except.ok s1) :
    LotsPos s1 ∧ invQty s1 a = specDelta w d a (invQty s a) tx := by
  unfold processCore at h
  split_ifs at h with h1 h2 h3
  · rw [exc_pure] at h
    cases h
    refine ⟨LotsPos_of_inventory_eq s _ rfl hP, ?_⟩
    rw [specDelta_fiat w d a _ tx h1]
    exact invQty_of_inventory_eq s _ a rfl
  · rw [processPositive_eq d s tx (ne_of_gt h2)] at h
    cases h
    by_cases hc : classifyPositive d tx.type
    · refine ⟨LotsPos_of_inventory_eq s _ (by simp [hc]) hP, ?_⟩
      rw [invQty_of_inventory_eq s _ a (by simp [hc])]
      by_cases hea : tx.asset = a
      · rw [specDelta_pos w d a _ tx hea (by rw [hea]; exact ha) h2, if_pos hc]
      · rw [specDelta_other_asset w d a _ tx hea]
    · constructor
      · intro p hp
        simp only [setPrice_inventory, if_pos hc, addLot_inventory, ite_not] at hp
        rcases mem_aset _ _ _ p hp with hp | rfl
        · exact hP p hp
        · intro l hl
          rcases List.mem_append.mp hl with hl | hl
          · cases hq : aget s.inventory tx.asset with
            | none => rw [agetD, hq, Option.getD_none] at hl; cases hl
            | some o =>
              rw [agetD, hq, Option.getD_some] at hl
              exact LotsPos_aget s tx.asset o hP hq l hl
          · rcases List.mem_singleton.mp hl with rfl
            exact h2
      · by_cases hea : tx.asset = a
        · subst hea
          rw [specDelta_pos w d tx.asset _ tx rfl ha h2, if_neg hc]
          unfold invQty
          simp only [setPrice_inventory, if_pos hc, addLot_inventory, ite_not]
          rw [agetD, aget_aset_self, Option.getD_some, lotsQty_append]
          simp [lotsQty]
        · rw [specDelta_other_asset w d a _ tx hea]
          unfold invQty
          simp only [setPrice_inventory, if_pos hc, addLot_inventory, ite_not]
          rw [agetD, aget_aset_ne _ _ _ _ hea, agetD]
  · cases hcn : classifyNegative w tx.type
    · rw [processNegative_disposal w s tx h3 hcn] at h
      cases h
      constructor
      · intro p hp
        simp only [strayAppend_inventory, saleStep_inventory, setPrice_inventory] at hp
        exact consumeFromInventory_pos s.inventory tx.asset _ hP p hp
      · have hq := consumeFromInventory_qty s.inventory tx.asset |tx.amount| (abs_nonneg _) hP a
        by_cases hea : tx.asset = a
        · rw [specDelta_neg w d a _ tx hea (by rw [hea]; exact ha) h3, if_neg (by simp [hcn])]
          unfold invQty
          simp only [strayAppend_inventory, saleStep_inventory, setPrice_inventory]
          rw [hq, if_pos hea]
        · rw [specDelta_other_asset w d a _ tx hea]
          unfold invQty
          simp only [strayAppend_inventory, saleStep_inventory, setPrice_inventory]
          rw [hq, if_neg hea]
    · rw [processNegative_transfer w s tx h3 hcn] at h
      cases hlg : s.lastGain with
      | none => rw [hlg] at h; cases h
      | some g =>
        rw [hlg] at h
        cases h
        refine ⟨LotsPos_of_inventory_eq s _ (by simp) hP, ?_⟩
        rw [invQty_of_inventory_eq s _ a (by simp)]
        by_cases hea : tx.asset = a
        · rw [specDelta_neg w d a _ tx hea (by rw [hea]; exact ha) h3, if_pos (by simp [hcn])]
        · rw [specDelta_other_asset w d a _ tx hea]
  · rw [exc_pure] at h
    cases h
    have h0 : tx.amount = 0 := le_antisymm (not_lt.mp h2) (not_lt.mp h3)
    exact ⟨hP, by rw [specDelta_zero w d a _ tx h0]⟩

theorem processTx_invQty (w d : Bool) (a : String) (ha : isFiat a = false)
    (s : EngineState) (tx : Tx) (s' : EngineState)
    (hP : LotsPos s) (h : processTx w d s tx = Except.ok s') :
    LotsPos s' ∧ invQty s' a = specDelta w d a (invQty s a) tx := by
  obtain ⟨s1, h1, rfl⟩ := (processTx_ok_iff w d s tx s').mp h
  obtain ⟨hP1, hq1⟩ := processCore_invQty w d a ha s tx s1 hP h1
  exact ⟨LotsPos_of_inventory_eq s1 _ rfl hP1,
    (invQty_of_inventory_eq s1 _ a rfl).trans hq1⟩

theorem foldlM_invQty (w d : Bool) (a : String) (ha : isFiat a = false) :
    ∀ (l : List Tx) (s s' : EngineState), LotsPos s →
      List.foldlM (processTx w d) s l = Except.ok s' →
      LotsPos s' ∧ invQty s' a = l.foldl (specDelta w d a) (invQty s a)
  | [], s, s', hP, h => by
    rw [foldlM_except_nil] at h
    cases h
    exact ⟨hP, rfl⟩
  | t :: ts, s, s', hP, h => by
    rw [foldlM_except_cons] at h
    cases hc : processTx w d s t with
    | error e => rw [hc, exc_error_bind] at h; cases h
    | ok s1 =>
      rw [hc, exc_ok_bind] at h
      obtain ⟨hP1, hq1⟩ := processTx_invQty w d a ha s t s1 hP hc
      obtain ⟨hP', hq'⟩ := foldlM_invQty w d a ha ts s1 s' hP1 h
      rw [List.foldl_cons]
      exact ⟨hP', by rw [hq', hq1]⟩

theorem run_specQty (txs : List Tx) (w d : Bool) (a : String) (s' : EngineState)
    (ha : isFiat a = false) (h : run txs w d = Except.ok s') :
    invQty s' a = specAssetQty w d a (sortTxs txs) := by
  have h0 : LotsPos initState := by intro p hp; cases hp
  obtain ⟨_, hq⟩ := foldlM_invQty w d a ha (sortTxs txs) initState s' h0 h
  rw [hq]
  rfl

/-! ## Error shape of the run, and the holdings summary -/

theorem run_error_shape (txs : List Tx) (w d : Bool) (e : PyErr)
    (h : run txs w d = Except.error e) : e = PyErr.unboundLocalError :=
  foldlM_error_shape (processTx w d) (processTx_error w d) (sortTxs txs) initState e h

theorem foldlM_total {σ τ : Type} (f : σ → τ → Except PyErr σ)
    (hstep : ∀ s t, ∃ s', f s t = Except.ok s') :
    ∀ (l : List τ) (s : σ), ∃ s', List.foldlM f s l = Except.ok s'
  | [], s => ⟨s, rfl⟩
  | t :: ts, s => by
    obtain ⟨s1, h1⟩ := hstep s t
    rw [foldlM_except_cons, h1, exc_ok_bind]
    exact foldlM_total f hstep ts s1

theorem get_holdings_summary_isOk (s : EngineState) :
    ∃ rows, get_holdings_summary s = Except.ok rows := by
  unfold get_holdings_summary
  apply foldlM_total
  intro rows p
  by_cases hq : 0 < lotsQty p.2
  · exact ⟨rows ++ [HoldingRow.mk p.1 (lotsQty p.2) (agetD s.last_known_prices p.1 0)
      (lotsQty p.2 * agetD s.last_known_prices p.1 0) (lotsBasis p.2)
      (lotsBasis p.2 / lotsQty p.2)
      (lotsQty p.2 * agetD s.last_known_prices p.1 0 - lotsBasis p.2)],
      by rw [if_pos hq]; simp [guardedDivPos_ok, exc_ok_bind, exc_pure, hq]⟩
  · exact ⟨rows, by simp only [if_neg hq, exc_pure]⟩

/-! ## Snapshot detail maps -/

theorem aget_of_mem_nodup {α : Type} :
    ∀ (m : List (String × α)) (k : String) (v : α),
      (m.map Prod.fst).Nodup → (k, v) ∈ m → aget m k = some v
  | [], _, _, _, h => by cases h
  | (k0, v0) :: rest, k, v, hnd, h => by
    rcases List.mem_cons.mp h with heq | h
    · cases heq
      rw [aget, if_pos rfl]
    · have hk0 : k0 ≠ k := by
        intro hk
        subst hk
        have : k0 ∈ rest.map Prod.fst := List.mem_map.mpr ⟨(k0, v), h, rfl⟩
        simp only [List.map_cons, List.nodup_cons] at hnd
        exact hnd.1 this
      rw [aget, if_neg hk0]
      exact aget_of_mem_nodup rest k v (by
        simp only [List.map_cons, List.nodup_cons] at hnd
        exact hnd.2) h

theorem aget_eq_none_iff {α : Type} :
    ∀ (m : List (String × α)) (k : String),
      aget m k = none ↔ k ∉ m.map Prod.fst
  | [], k => by simp [aget]
  | (k0, v0) :: rest, k => by
    by_cases h0 : k0 = k
    · subst h0
      simp [aget]
    · rw [aget, if_neg h0]
      simp only [List.map_cons, List.mem_cons]
      rw [aget_eq_none_iff rest k]
      constructor
      · intro h hk
        rcases hk with hk | hk
        · exact h0 hk.symm
        · exact h hk
      · intro h hk
        exact h (Or.inr hk)

theorem aset_keys {α : Type} :
    ∀ (m : List (String × α)) (k : String) (v : α),
      (aset m k v).map Prod.fst =
        (if (aget m k).isSome then m.map Prod.fst else m.map Prod.fst ++ [k])
  | [], k, v => by simp [aset, aget]
  | (k0, v0) :: rest, k, v => by
    by_cases h0 : k0 = k
    · subst h0
      simp [aset, aget]
    · rw [aset, if_neg h0, aget, if_neg h0]
      simp only [List.map_cons, aset_keys rest k v]
      by_cases hn : (aget rest k).isSome <;> simp [hn]

theorem nodup_aset {α : Type} (m : List (String × α)) (k : String) (v : α)
    (h : (m.map Prod.fst).Nodup) : ((aset m k v).map Prod.fst).Nodup := by
  rw [aset_keys]
  cases hopt : aget m k with
  | some v' => simp only [hopt, Option.isSome_some, if_true]; exact h
  | none =>
    simp only [hopt, Option.isSome_none, Bool.false_eq_true, if_false]
    rw [List.nodup_append]
    refine ⟨h, List.nodup_singleton k, ?_⟩
    intro x hx hk
    rcases List.mem_singleton.mp hk with rfl
    exact (aget_eq_none_iff m x).mp hopt hx

/-- The inventory dict has no duplicate keys (true of every reachable
state, since Python dicts cannot have duplicates). -/
def KeysND (s : EngineState) : Prop := (s.inventory.map Prod.fst).Nodup

theorem processCore_keysND (w d : Bool) (s : EngineState) (tx : Tx) (s1 : EngineState)
    (hnd : KeysND s) (h : processCore w d s tx = Except.ok s1) : KeysND s1 := by
  unfold processCore at h
  split_ifs at h with h1 h2 h3
  · rw [exc_pure] at h; cases h; exact hnd
  · rw [processPositive_eq d s tx (ne_of_gt h2)] at h
    cases h
    by_cases hc : classifyPositive d tx.type
    · unfold KeysND
      simp [hc]
      exact hnd
    · unfold KeysND
      simp only [setPrice_inventory, if_pos hc, addLot_inventory, ite_not]
      exact nodup_aset _ _ _ hnd
  · cases hcn : classifyNegative w tx.type
    · rw [processNegative_disposal w s tx h3 hcn] at h
      cases h
      unfold KeysND
      simp only [strayAppend_inventory, saleStep_inventory, setPrice_inventory]
      unfold consumeFromInventory
      cases hq : aget s.inventory tx.asset
      · exact hnd
      · exact nodup_aset _ _ _ hnd
    · rw [processNegative_transfer w s tx h3 hcn] at h
      cases hlg : s.lastGain with
      | none => rw [hlg] at h; cases h
      | some g => rw [hlg] at h; cases h; exact hnd
  · rw [exc_pure] at h; cases h; exact hnd

theorem processTx_keysND (w d : Bool) (s : EngineState) (tx : Tx) (s' : EngineState)
    (hnd : KeysND s) (h : processTx w d s tx = Except.ok s') : KeysND s' := by
  obtain ⟨s1, h1, rfl⟩ := (processTx_ok_iff w d s tx s').mp h
  exact processCore_keysND w d s tx s1 hnd h1

theorem processTx_LotsPos (w d : Bool) (s : EngineState) (tx : Tx) (s' : EngineState)
    (hP : LotsPos s) (h : processTx w d s tx = Except.ok s') : LotsPos s' :=
  (processTx_invQty w d "" (by decide) s tx s' hP h).1

theorem mkSnapshot_details_pos (s : EngineState) (tx : Tx) (hP : LotsPos s) :
    ∀ p ∈ (mkSnapshot s tx).asset_details, 0 < p.2.qty := by
  intro p hp
  simp only [mkSnapshot] at hp
  rcases List.mem_map.mp hp with ⟨q, hq, rfl⟩
  have hqf := List.mem_filter.mp hq
  have hne : q.2 ≠ [] := by
    have := hqf.2
    simp only [decide_eq_true_eq] at this
    intro hnil
    rw [hnil] at this
    simp [List.isEmpty] at this
  exact lotsQty_pos q.2 hne (hP q hqf.1)

theorem mkSnapshot_details_mem (s : EngineState) (tx : Tx) (hnd : KeysND s)
    (a : String) :
    (∃ det, (a, det) ∈ (mkSnapshot s tx).asset_details) ↔
      ∃ q, aget s.inventory a = some q ∧ q ≠ [] := by
  constructor
  · rintro ⟨det, hdet⟩
    simp only [mkSnapshot] at hdet
    rcases List.mem_map.mp hdet with ⟨p, hpf, heq⟩
    have hpm := List.mem_filter.mp hpf
    have hp1 : p.1 = a := congrArg Prod.fst heq
    refine ⟨p.2, ?_, ?_⟩
    · rw [← hp1]
      exact aget_of_mem_nodup s.inventory p.1 p.2 hnd (by
        rw [(by rfl : (p.1, p.2) = p)]
        exact hpm.1)
    · have := hpm.2
      simp only [decide_eq_true_eq] at this
      intro hnil
      rw [hnil] at this
      simp [List.isEmpty] at this
  · rintro ⟨q, hq, hne⟩
    have hm := aget_mem _ _ _ hq
    refine ⟨⟨lotsQty q, lotsBasis q⟩, ?_⟩
    simp only [mkSnapshot]
    apply List.mem_map.mpr
    refine ⟨(a, q), List.mem_filter.mpr ⟨hm, ?_⟩, rfl⟩
    simp only [decide_eq_true_eq]
    intro hemp
    exact hne (List.isEmpty_iff.mp hemp)

/-! ## The implied-price overwrite on acquisitions -/

theorem processTx_pos_isOk (w d : Bool) (s : EngineState) (tx : Tx)
    (hf : isFiat tx.asset = false) (h0 : 0 < tx.amount) :
    ∃ s', processTx w d s tx = Except.ok s' := by
  obtain ⟨s1, h1⟩ := processPositive_isOk d s tx
  refine ⟨appendSnapshot s1 tx, (processTx_ok_iff w d s tx _).mpr ⟨s1, ?_, rfl⟩⟩
  unfold processCore
  rw [if_neg (by simp [hf]), if_pos h0]
  exact h1

theorem processTx_pos_price (w d : Bool) (s : EngineState) (tx : Tx) (s' : EngineState)
    (hf : isFiat tx.asset = false) (h0 : 0 < tx.amount)
    (h : processTx w d s tx = Except.ok s') :
    aget s'.last_known_prices tx.asset = some |tx.fiat_value.getD 0 / tx.amount| := by
  obtain ⟨s1, h1, rfl⟩ := (processTx_ok_iff w d s tx s').mp h
  unfold processCore at h1
  rw [if_neg (by simp [hf]), if_pos h0, processPositive_eq d s tx (ne_of_gt h0)] at h1
  cases h1
  rw [appendSnapshot_prices, setPrice_prices, aget_aset_self]

theorem exc_map_ok {ε α β : Type} (f : α → β) (x : α) :
    Except.map f (Except.ok x : Except ε α) = Except.ok (f x) := rfl

/-! ## Frame lemmas for transfers and returns -/

theorem processTx_transfer_inventory (w d : Bool) (s : EngineState) (tx : Tx)
    (s' : EngineState) (hf : isFiat tx.asset = false) (h0 : tx.amount < 0)
    (hc : classifyNegative w tx.type = true)
    (h : processTx w d s tx = Except.ok s') : s'.inventory = s.inventory := by
  obtain ⟨s1, h1, rfl⟩ := (processTx_ok_iff w d s tx s').mp h
  unfold processCore at h1
  rw [if_neg (by simp [hf]), if_neg (not_lt.mpr (le_of_lt h0)), if_pos h0,
    processNegative_transfer w s tx h0 hc] at h1
  cases hlg : s.lastGain with
  | none => rw [hlg] at h1; cases h1
  | some g => rw [hlg] at h1; cases h1; simp

theorem processTx_return_inventory (w d : Bool) (s : EngineState) (tx : Tx)
    (s' : EngineState) (hf : isFiat tx.asset = false) (h0 : 0 < tx.amount)
    (hc : classifyPositive d tx.type = true)
    (h : processTx w d s tx = Except.ok s') : s'.inventory = s.inventory := by
  obtain ⟨s1, h1, rfl⟩ := (processTx_ok_iff w d s tx s').mp h
  unfold processCore at h1
  rw [if_neg (by simp [hf]), if_pos h0,
    processPositive_eq d s tx (ne_of_gt h0)] at h1
  cases h1
  simp [hc]

/-! ## Run-level snapshot invariants -/

/-- Invariant for C10: positive lots, no duplicate inventory keys, and all
recorded snapshot details strictly positive. -/
def SnapInv (s : EngineState) : Prop :=
  LotsPos s ∧ KeysND s ∧
    ∀ snap ∈ s.portfolio_history, ∀ p ∈ snap.asset_details, 0 < p.2.qty

theorem processTx_snapInv (w d : Bool) (s : EngineState) (tx : Tx) (s' : EngineState)
    (hI : SnapInv s) (h : processTx w d s tx = Except.ok s') : SnapInv s' := by
  obtain ⟨hP, hnd, hsnap⟩ := hI
  obtain ⟨s1, h1, rfl⟩ := (processTx_ok_iff w d s tx s').mp h
  have hP1 : LotsPos s1 := (processCore_invQty w d "" (by decide) s tx s1 hP h1).1
  refine ⟨LotsPos_of_inventory_eq s1 _ rfl hP1,
    ?_, ?_⟩
  · unfold KeysND
    rw [appendSnapshot_inventory]
    exact processCore_keysND w d s tx s1 hnd h1
  · intro snap hmem
    rw [appendSnapshot_history, processCore_history w d s tx s1 h1] at hmem
    rcases List.mem_append.mp hmem with hmem | hmem
    · exact hsnap snap hmem
    · rcases List.mem_singleton.mp hmem with rfl
      exact mkSnapshot_details_pos s1 tx hP1

theorem run_snapInv (txs : List Tx) (w d : Bool) (s' : EngineState)
    (h : run txs w d = Except.ok s') : SnapInv s' := by
  have hA : LotsPos initState := fun p hp => by cases hp
  have hB : KeysND initState := by simp [KeysND, initState]
  have hC : ∀ snap ∈ initState.portfolio_history, ∀ p ∈ snap.asset_details, 0 < p.2.qty :=
    fun snap hs => by cases hs
  have h0 : SnapInv initState := ⟨hA, hB, hC⟩
  exact foldlM_inv (processTx w d) SnapInv (fun s t s1 hI hstep => processTx_snapInv w d s t s1 hI hstep)
    (sortTxs txs) initState s' h0 h

/-! ## Concrete test ledgers -/

/-- Buy 2 BTC, dispose 1 by trade, then withdraw 1 (a transfer). -/
def ledgerDouble : List Tx :=
  [mkTx 1 "trade" "XXBT" 2 (some 20000), mkTx 2 "trade" "XXBT" (-1) (some 11000),
   mkTx 3 "withdrawal" "XXBT" (-1) none]

/-- Buy 1 BTC, then withdraw it (a transfer, before any disposal). -/
def ledgerCrash : List Tx :=
  [mkTx 1 "trade" "XXBT" 1 (some 10000), mkTx 2 "withdrawal" "XXBT" (-1) none]

/-- Spec scenario 2: two acquisitions, then a 1.5 BTC disposal at 45000. -/
def ledgerFifo : List Tx :=
  [mkTx 1 "trade" "XXBT" 1 (some 10000), mkTx 3 "trade" "XXBT" 1 (some 20000),
   mkTx 5 "trade" "XXBT" (-(3/2)) (some 45000)]

/-- Buy 1 BTC, then a negative movement of an unknown type. -/
def ledgerStaking : List Tx :=
  [mkTx 1 "trade" "XXBT" 1 (some 10000), mkTx 2 "staking" "XXBT" (-1) (some 12000)]

/-- Underflow: 1 BTC held, 1.5 BTC disposed. -/
def ledgerShortA : List Tx :=
  [mkTx 1 "trade" "XXBT" 1 (some 10000), mkTx 5 "trade" "XXBT" (-(3/2)) (some 45000)]

/-- Fully-stocked twin of `ledgerShortA`: 1.5 BTC held at the same total
cost 10000, 1.5 BTC disposed. -/
def ledgerShortB : List Tx :=
  [mkTx 1 "trade" "XXBT" 1 (some 4000), mkTx 2 "trade" "XXBT" (1/2) (some 6000),
   mkTx 5 "trade" "XXBT" (-(3/2)) (some 45000)]

/-- Buy 1 BTC at 10000, sell it at 11000. -/
def ledgerTwoTrades : List Tx :=
  [mkTx 1 "trade" "XXBT" 1 (some 10000), mkTx 2 "trade" "XXBT" (-1) (some 11000)]

/-- Buy 1 BTC with fiat value, then a return deposit without one. -/
def ledgerReturnDeposit : List Tx :=
  [mkTx 1 "trade" "XXBT" 1 (some 10000), mkTx 2 "deposit" "XXBT" 1 none]

/-- Buy, fully dispose, then re-acquire the same asset. -/
def ledgerRebuy : List Tx :=
  [mkTx 1 "trade" "XXBT" 1 (some 10000), mkTx 2 "trade" "XXBT" (-1) (some 12000),
   mkTx 3 "trade" "XXBT" 1 (some 15000)]

/-- A state in which the local `gain` has already been defined. -/
def stateWithGain : EngineState := { initState with lastGain := some 0 }

/-! ## Claims -/

/-- C1: the claim says exactly one realized-gain record is appended per
disposal and none for transfers.  The code appends a second, short record
after every negative-amount branch (`engine.py` lines 149-153): on
`ledgerDouble` (one disposal, one transfer) the log holds 3 records for 1
disposal, and on `ledgerCrash` (a transfer before any disposal) the run
raises `UnboundLocalError` because the local `gain` is undefined. -/
theorem C1_two_records_per_disposal :
    (run ledgerDouble true false).map (fun s => s.realized_gains.length) = Except.ok 3 ∧
    ((sortTxs ledgerDouble).filter (fun tx =>
      decide (isFiat tx.asset = false ∧ tx.amount < 0 ∧
        classifyNegative true tx.type = false))).length = 1 ∧
    run ledgerCrash true false = Except.error PyErr.unboundLocalError :=
  ⟨by decide, by decide, by decide⟩

/-- C2: FIFO disposal consumes from the front of the queue: some prefix of
lots is removed whole, at most the next lot is reduced (staying strictly
positive), the cost basis consumed is exactly the basis that left the
queue, and on the spec's scenario 2 ledger the disposal consumes basis
20000, realizes 25000 and leaves a single half-BTC lot of basis 10000. -/
theorem C2_fifo_consumption :
    (∀ (queue : List Lot) (x : ℚ), (∀ l ∈ queue, 0 < l.qty) →
      ((∀ l ∈ (fifoConsume queue x).2.2, 0 < l.qty) ∧
       (fifoConsume queue x).1 = lotsBasis queue - lotsBasis (fifoConsume queue x).2.2 ∧
       ∃ k, ((fifoConsume queue x).2.2 = queue.drop k ∨
         ∃ hd tl r, queue.drop k = hd :: tl ∧ 0 < r ∧ r < hd.qty ∧
           (fifoConsume queue x).2.2 = Lot.mk r hd.unit_cost hd.date :: tl))) ∧
    (run ledgerFifo true false).map (fun s =>
        (aget s.inventory "XXBT", s.cumulative_realized_gain,
         s.realized_gains.head?, lotsBasis (agetD s.inventory "XXBT" []))) =
      Except.ok (some [Lot.mk (1/2) 20000 3], 25000,
        some (GainRecord.full 5 "XXBT" (3/2) 45000 20000 25000 "trade"), 10000) := by
  constructor
  · intro queue x hpos
    exact ⟨fifoConsume_pos queue x hpos, fifoConsume_basis queue x,
      fifoConsume_structure queue x⟩
  · norm_num [run, sortTxs, insertTx, List.foldlM, processTx, processCore, processFiat,
      processPositive, processNegative, guardedDiv, pyDiv, setPrice, addLot, saleStep,
      strayAppend, consumeFromInventory, fifoConsume, appendSnapshot, mkSnapshot, aget,
      aset, agetD, lotsQty, lotsBasis, initState, mkTx, ledgerFifo, exc_pure, exc_ok_bind,
      exc_map_ok, List.filter, List.head?, abs_of_pos, abs_neg, abs_zero,
      show isFiat "XXBT" = false from by decide,
      show classifyNegative true "trade" = false from by decide,
      show classifyPositive false "trade" = false from by decide,
      show (decide ("XXBT" = ("ZUSD" : String))) = false from by decide,
      show (decide ("XXBT" = ("USD" : String))) = false from by decide]

/-- C2 witness: the FIFO lemma applied to one concrete lot queue. -/
theorem C2_fifo_consumption_witness :
    (∀ l ∈ [Lot.mk 1 10000 1], 0 < l.qty) ∧
    (∀ l ∈ (fifoConsume [Lot.mk 1 10000 1] (3/2)).2.2, 0 < l.qty) :=
  ⟨by decide, (C2_fifo_consumption.1 [Lot.mk 1 10000 1] (3/2) (by decide)).1⟩

/-- C3 counterexample: the negative-amount type "staking" (in neither type
set) is classified as a disposal, not a transfer, under
`withdrawals_as_transfers = true`: the lot is consumed and a gain of 2000
is realized, refuting the claim's flag-controlled transfer default. -/
theorem C3_counterexample :
    classifyNegative true "staking" = false ∧
    (run ledgerStaking true false).map (fun s =>
        (aget s.inventory "XXBT", s.cumulative_realized_gain, s.realized_gains.length)) =
      Except.ok (some [], 2000, 2) := by
  refine ⟨by decide, ?_⟩
  norm_num [run, sortTxs, insertTx, List.foldlM, processTx, processCore, processFiat,
    processPositive, processNegative, guardedDiv, pyDiv, setPrice, addLot, saleStep,
    strayAppend, consumeFromInventory, fifoConsume, appendSnapshot, mkSnapshot, aget,
    aset, agetD, lotsQty, lotsBasis, initState, mkTx, ledgerStaking, exc_pure, exc_ok_bind,
    exc_map_ok, List.filter,
    show isFiat "XXBT" = false from by decide,
    show classifyNegative true "staking" = false from by decide,
    show classifyPositive false "trade" = false from by decide,
    show (decide ("XXBT" = ("ZUSD" : String))) = false from by decide,
    show (decide ("XXBT" = ("USD" : String))) = false from by decide]

/-- C3 (amended): a negative-amount non-fiat transaction whose lower-cased
type is in neither set is classified as a DISPOSAL (`is_transfer` stays
`False` for unknown types even under the flag), so lots are consumed, the
cumulative gain grows by proceeds minus consumed basis, and a full
realized-gain record is appended for that transaction. -/
theorem C3_unknown_type_is_disposal :
    (∀ (w : Bool) (ty : String),
       strLower ty ∉ ["withdrawal", "transfer", "send", "deposit"] →
       strLower ty ∉ ["trade", "margin", "settled", "spend"] →
       classifyNegative w ty = false) ∧
    (∀ (w d : Bool) (s : EngineState) (tx : Tx) (s' : EngineState),
       isFiat tx.asset = false → tx.amount < 0 →
       classifyNegative w tx.type = false →
       processTx w d s tx = Except.ok s' →
       (s'.inventory = (consumeFromInventory s.inventory tx.asset |tx.amount|).2 ∧
        s'.cumulative_realized_gain = s.cumulative_realized_gain +
          (|tx.fiat_value.getD 0| - (consumeFromInventory s.inventory tx.asset |tx.amount|).1) ∧
        GainRecord.full tx.timestamp tx.asset |tx.amount| |tx.fiat_value.getD 0|
          (consumeFromInventory s.inventory tx.asset |tx.amount|).1
          (|tx.fiat_value.getD 0| - (consumeFromInventory s.inventory tx.asset |tx.amount|).1)
          tx.type ∈ s'.realized_gains)) := by
  constructor
  · intro w ty h1 h2
    cases w
    · simp [classifyNegative]
    · simp [classifyNegative, h1, h2]
  · intro w d s tx s' hf h0 hc h
    obtain ⟨s1, h1, rfl⟩ := (processTx_ok_iff w d s tx s').mp h
    unfold processCore at h1
    rw [if_neg (by simp [hf]), if_neg (not_lt.mpr (le_of_lt h0)), if_pos h0,
      processNegative_disposal w s tx h0 hc] at h1
    cases h1
    refine ⟨by simp, by simp, ?_⟩
    simp only [appendSnapshot_gains, strayAppend_gains, saleStep_gains, setPrice_gains,
      setPrice_inventory]
    apply List.mem_append.mpr
    apply Or.inl
    apply List.mem_append.mpr
    exact Or.inr (List.mem_singleton.mpr rfl)

/-- C3 witness: the classifier fact instantiated at the type "staking". -/
theorem C3_unknown_type_is_disposal_witness :
    (strLower "staking" ∉ ["withdrawal", "transfer", "send", "deposit"]) ∧
    classifyNegative true "staking" = false :=
  ⟨by decide, C3_unknown_type_is_disposal.1 true "staking" (by decide) (by decide)⟩

/-- C4: on `ledgerShortA` the disposal requests 1.5 BTC while only 1 BTC
is held (snapshot 1 shows quantity 1).  The engine does not fail: it
consumes the available lot and the record's cost basis (10000) reflects
only what was consumed — but the record lists the full requested quantity
1.5 and the realized-gains log is IDENTICAL to that of `ledgerShortB`,
where 1.5 BTC really were held at the same total cost, so the
under-consumption is not observable to the caller, contradicting the
claim's distinguishable-signal requirement. -/
theorem C4_underflow_not_observable :
    (run ledgerShortA true false).map (fun s => s.realized_gains) =
      (run ledgerShortB true false).map (fun s => s.realized_gains) ∧
    (run ledgerShortA true false).map (fun s =>
        (s.realized_gains, s.portfolio_history.map (fun sn => sn.asset_details))) =
      Except.ok ([GainRecord.full 5 "XXBT" (3/2) 45000 10000 35000 "trade",
        GainRecord.short 5 "XXBT" 35000], [[("XXBT", AssetDetail.mk 1 10000)], []]) := by
  constructor <;>
    norm_num [run, sortTxs, insertTx, List.foldlM, processTx, processCore, processFiat,
      processPositive, processNegative, guardedDiv, pyDiv, setPrice, addLot, saleStep,
      strayAppend, consumeFromInventory, fifoConsume, appendSnapshot, mkSnapshot, aget,
      aset, agetD, lotsQty, lotsBasis, initState, mkTx, ledgerShortA, ledgerShortB,
      exc_pure, exc_ok_bind, exc_map_ok, List.filter, abs_of_pos, abs_neg, abs_zero,
      show isFiat "XXBT" = false from by decide,
      show classifyNegative true "trade" = false from by decide,
      show classifyPositive false "trade" = false from by decide,
      show (decide ("XXBT" = ("ZUSD" : String))) = false from by decide,
      show (decide ("XXBT" = ("USD" : String))) = false from by decide]

/-- C5: the claim says the final snapshot's cumulative realized gain
equals the sum of the gain values of the realized-gains log.  Because
every disposal appends two records carrying the same gain
(`engine.py` lines 139-153), on `ledgerTwoTrades` the cumulative gain is
1000 while the log's gains sum to 2000. -/
theorem C5_cumulative_vs_log_sum :
    (run ledgerTwoTrades true false).map (fun s =>
        (s.cumulative_realized_gain, (s.realized_gains.map GainRecord.gain_usd).sum,
         s.portfolio_history.getLast?.map Snapshot.total_realized_gain)) =
      Except.ok (1000, 2000, some 1000) ∧ (1000 : ℚ) ≠ 2000 := by
  refine ⟨?_, by norm_num⟩
  norm_num [run, sortTxs, insertTx, List.foldlM, processTx, processCore, processFiat,
    processPositive, processNegative, guardedDiv, pyDiv, setPrice, addLot, saleStep,
    strayAppend, consumeFromInventory, fifoConsume, appendSnapshot, mkSnapshot, aget,
    aset, agetD, lotsQty, lotsBasis, initState, mkTx, ledgerTwoTrades, exc_pure,
    exc_ok_bind, exc_map_ok, GainRecord.gain_usd, List.filter, List.getLast?,
    show isFiat "XXBT" = false from by decide,
    show classifyNegative true "trade" = false from by decide,
    show classifyPositive false "trade" = false from by decide,
    show (decide ("XXBT" = ("ZUSD" : String))) = false from by decide,
    show (decide ("XXBT" = ("USD" : String))) = false from by decide]

/-- C6: a negative-amount transaction classified as a transfer, and a
positive-amount transaction classified as a return of transferred funds,
leave the inventory completely unchanged; consequently after a completed
run each non-fiat asset's total lot quantity equals the spec-side balance
(genuine acquisitions minus the quantities actually consumed by taxable
disposals) over the processed sequence. -/
theorem C6_transfers_leave_inventory_unchanged :
    (∀ (w d : Bool) (s : EngineState) (tx : Tx) (s' : EngineState),
       isFiat tx.asset = false → tx.amount < 0 → classifyNegative w tx.type = true →
       processTx w d s tx = Except.ok s' → s'.inventory = s.inventory) ∧
    (∀ (w d : Bool) (s : EngineState) (tx : Tx) (s' : EngineState),
       isFiat tx.asset = false → 0 < tx.amount → classifyPositive d tx.type = true →
       processTx w d s tx = Except.ok s' → s'.inventory = s.inventory) ∧
    (∀ (txs : List Tx) (w d : Bool) (a : String) (s' : EngineState),
       isFiat a = false → run txs w d = Except.ok s' →
       invQty s' a = specAssetQty w d a (sortTxs txs)) :=
  ⟨processTx_transfer_inventory, processTx_return_inventory,
   fun txs w d a s' ha h => run_specQty txs w d a s' ha h⟩

/-- C6 witness: the quantity balance evaluated on `ledgerDouble`. -/
theorem C6_transfers_leave_inventory_unchanged_witness :
    isFiat "XXBT" = false ∧
    (run ledgerDouble true false).map (fun s => invQty s "XXBT") =
      Except.ok (specAssetQty true false "XXBT" (sortTxs ledgerDouble)) := by
  refine ⟨by decide, ?_⟩
  cases hr : run ledgerDouble true false with
  | error e =>
    exact absurd hr (by
      norm_num [run, sortTxs, insertTx, List.foldlM, processTx, processCore, processFiat,
        processPositive, processNegative, guardedDiv, pyDiv, setPrice, addLot, saleStep,
        strayAppend, consumeFromInventory, fifoConsume, appendSnapshot, mkSnapshot, aget,
        aset, agetD, lotsQty, lotsBasis, initState, mkTx, ledgerDouble, exc_pure,
        exc_ok_bind, List.filter,
        show isFiat "XXBT" = false from by decide,
        show classifyNegative true "trade" = false from by decide,
        show classifyNegative true "withdrawal" = true from by decide,
        show classifyPositive false "trade" = false from by decide,
        show (decide ("XXBT" = ("ZUSD" : String))) = false from by decide,
        show (decide ("XXBT" = ("USD" : String))) = false from by decide]
      exact fun h => nomatch h)
  | ok S =>
    rw [exc_map_ok]
    exact congrArg Except.ok
      (C6_transfers_leave_inventory_unchanged.2.2 ledgerDouble true false "XXBT" S
        (by decide) hr)

/-- C7: the engine processes a stable ascending sort of the input (sorted
by timestamp, ties in original order: the sorted sequence is pairwise
non-decreasing and filters to the same sublist as the input at every
timestamp), and a completed run appends exactly one snapshot per input
transaction — fiat included — in that order, so the snapshot history has
the input's length and non-decreasing timestamps. -/
theorem C7_stable_sort_one_snapshot_per_tx :
    (∀ txs : List Tx, (sortTxs txs).Pairwise (fun a b => a.timestamp ≤ b.timestamp)) ∧
    (∀ (txs : List Tx) (c : Nat),
       (sortTxs txs).filter (fun x => decide (x.timestamp = c)) =
         txs.filter (fun x => decide (x.timestamp = c))) ∧
    (∀ txs : List Tx, (sortTxs txs).length = txs.length) ∧
    (∀ (txs : List Tx) (w d : Bool) (s' : EngineState),
       run txs w d = Except.ok s' →
       (s'.portfolio_history.map Snapshot.timestamp = (sortTxs txs).map Tx.timestamp ∧
        s'.portfolio_history.length = txs.length ∧
        s'.portfolio_history.Pairwise (fun a b => a.timestamp ≤ b.timestamp))) := by
  refine ⟨sortTxs_sorted, sortTxs_filter, sortTxs_length, ?_⟩
  intro txs w d s' h
  have hmap := foldlM_run_history w d (sortTxs txs) initState s' h
  simp only [initState, List.map_nil, List.nil_append] at hmap
  refine ⟨hmap, ?_, ?_⟩
  · have hlen := congrArg List.length hmap
    simp only [List.length_map] at hlen
    rw [hlen, sortTxs_length]
  · have h1 : ((sortTxs txs).map Tx.timestamp).Pairwise (fun a b => a ≤ b) :=
      List.Pairwise.map Tx.timestamp (fun a b hab => hab) (sortTxs_sorted txs)
    rw [← hmap] at h1
    exact List.pairwise_map.mp h1

/-- C7 witness: the snapshot timestamps of a concrete completed run. -/
theorem C7_stable_sort_one_snapshot_per_tx_witness :
    (run ledgerDouble true false).map (fun s => s.portfolio_history.map Snapshot.timestamp) =
      Except.ok ((sortTxs ledgerDouble).map Tx.timestamp) := by
  cases hr : run ledgerDouble true false with
  | error e =>
    exact absurd hr (by
      norm_num [run, sortTxs, insertTx, List.foldlM, processTx, processCore, processFiat,
        processPositive, processNegative, guardedDiv, pyDiv, setPrice, addLot, saleStep,
        strayAppend, consumeFromInventory, fifoConsume, appendSnapshot, mkSnapshot, aget,
        aset, agetD, lotsQty, lotsBasis, initState, mkTx, ledgerDouble, exc_pure,
        exc_ok_bind, List.filter,
        show isFiat "XXBT" = false from by decide,
        show classifyNegative true "trade" = false from by decide,
        show classifyNegative true "withdrawal" = true from by decide,
        show classifyPositive false "trade" = false from by decide,
        show (decide ("XXBT" = ("ZUSD" : String))) = false from by decide,
        show (decide ("XXBT" = ("USD" : String))) = false from by decide]
      exact fun h => nomatch h)
  | ok S =>
    rw [exc_map_ok]
    exact congrArg Except.ok
      (C7_stable_sort_one_snapshot_per_tx.2.2.2 ledgerDouble true false S hr).1

/-- C8: every division the engine performs is guarded: the unit-cost and
average-buy-price guards return the fallback zero on a zero divisor, a run
can only fail with `UnboundLocalError` (never `ZeroDivisionError`), and
the holdings summary always succeeds. -/
theorem C8_division_guards :
    (∀ a : ℚ, guardedDiv a 0 = Except.ok 0) ∧
    (∀ a : ℚ, guardedDivPos a 0 = Except.ok 0) ∧
    (∀ (txs : List Tx) (w d : Bool) (e : PyErr),
       run txs w d = Except.error e → e = PyErr.unboundLocalError) ∧
    (∀ s : EngineState, ∃ rows, get_holdings_summary s = Except.ok rows) := by
  refine ⟨?_, ?_, run_error_shape, get_holdings_summary_isOk⟩
  · intro a
    simp [guardedDiv, exc_pure]
  · intro a
    simp [guardedDivPos, exc_pure]

/-- C8 witness: the only failing run in sight fails with
`UnboundLocalError`, as the theorem requires. -/
theorem C8_division_guards_witness :
    run ledgerCrash true false = Except.error PyErr.unboundLocalError ∧
    PyErr.unboundLocalError = PyErr.unboundLocalError :=
  ⟨by decide,
   C8_division_guards.2.2.1 ledgerCrash true false PyErr.unboundLocalError (by decide)⟩

/-- C9: every positive-amount non-fiat transaction — returns included —
overwrites the asset's last-known price with the absolute value of
`fiat_value / amount`, which is 0 when `fiat_value` is absent; on
`ledgerReturnDeposit` (run with `deposits_as_transfers = true`) the return
deposit without a fiat value resets the implied price to zero, dropping the
estimated market value from 10000 to 0 even though the lot is still held. -/
theorem C9_price_overwrite_on_acquisition :
    (∀ (w d : Bool) (s : EngineState) (tx : Tx) (s' : EngineState),
       isFiat tx.asset = false → 0 < tx.amount →
       processTx w d s tx = Except.ok s' →
       aget s'.last_known_prices tx.asset = some |tx.fiat_value.getD 0 / tx.amount|) ∧
    (∀ (w d : Bool) (s : EngineState) (tx : Tx) (s' : EngineState),
       isFiat tx.asset = false → 0 < tx.amount → tx.fiat_value = none →
       processTx w d s tx = Except.ok s' →
       aget s'.last_known_prices tx.asset = some 0) ∧
    (run ledgerReturnDeposit true true).map (fun s =>
        (aget s.last_known_prices "XXBT",
         s.portfolio_history.map Snapshot.total_market_value)) =
      Except.ok (some 0, [10000, 0]) ∧
    classifyPositive true "deposit" = true := by
  refine ⟨processTx_pos_price, ?_, ?_, by decide⟩
  · intro w d s tx s' hf h0 hv h
    have hp := processTx_pos_price w d s tx s' hf h0 h
    rw [hv] at hp
    simpa using hp
  · norm_num [run, sortTxs, insertTx, List.foldlM, processTx, processCore, processFiat,
      processPositive, processNegative, guardedDiv, pyDiv, setPrice, addLot, saleStep,
      strayAppend, consumeFromInventory, fifoConsume, appendSnapshot, mkSnapshot, aget,
      aset, agetD, lotsQty, lotsBasis, initState, mkTx, ledgerReturnDeposit, exc_pure,
      exc_ok_bind, exc_map_ok, List.filter,
      show isFiat "XXBT" = false from by decide,
      show classifyPositive true "trade" = false from by decide,
      show classifyPositive true "deposit" = true from by decide,
      show (decide ("XXBT" = ("ZUSD" : String))) = false from by decide,
      show (decide ("XXBT" = ("USD" : String))) = false from by decide]

/-- C9 witness: the price overwrite applied to one concrete acquisition. -/
theorem C9_price_overwrite_on_acquisition_witness :
    isFiat "XXBT" = false ∧
    (processTx true false initState (mkTx 1 "trade" "XXBT" 2 (some 30000))).map
        (fun s => aget s.last_known_prices "XXBT") =
      Except.ok (some |(30000 : ℚ) / 2|) := by
  refine ⟨by decide, ?_⟩
  cases hr : processTx true false initState (mkTx 1 "trade" "XXBT" 2 (some 30000)) with
  | error e =>
    exact absurd hr (by
      norm_num [processTx, processCore, processFiat, processPositive, processNegative,
        guardedDiv, pyDiv, setPrice, addLot, appendSnapshot, mkSnapshot, aget, aset,
        agetD, lotsQty, lotsBasis, initState, mkTx, exc_pure, exc_ok_bind, List.filter,
        show isFiat "XXBT" = false from by decide,
        show classifyPositive false "trade" = false from by decide,
        show (decide ("XXBT" = ("ZUSD" : String))) = false from by decide,
        show (decide ("XXBT" = ("USD" : String))) = false from by decide]
      exact fun h => nomatch h)
  | ok S =>
    rw [exc_map_ok]
    exact congrArg Except.ok
      (C9_price_overwrite_on_acquisition.1 true false initState
        (mkTx 1 "trade" "XXBT" 2 (some 30000)) S (by decide) (by decide) hr)

/-- C10 counterexample: on `ledgerRebuy` the asset is fully consumed at
the second transaction (empty detail map) but re-acquired at the third, so
it appears again in a later snapshot, refuting "absent from the detail
maps of all subsequent snapshots". -/
theorem C10_counterexample :
    (run ledgerRebuy true false).map (fun s =>
        s.portfolio_history.map (fun sn => sn.asset_details.map Prod.fst)) =
      Except.ok [["XXBT"], [], ["XXBT"]] := by
  norm_num [run, sortTxs, insertTx, List.foldlM, processTx, processCore, processFiat,
    processPositive, processNegative, guardedDiv, pyDiv, setPrice, addLot, saleStep,
    strayAppend, consumeFromInventory, fifoConsume, appendSnapshot, mkSnapshot, aget,
    aset, agetD, lotsQty, lotsBasis, initState, mkTx, ledgerRebuy, exc_pure,
    exc_ok_bind, exc_map_ok, List.filter,
    show isFiat "XXBT" = false from by decide,
    show classifyNegative true "trade" = false from by decide,
    show classifyPositive false "trade" = false from by decide,
    show (decide ("XXBT" = ("ZUSD" : String))) = false from by decide,
    show (decide ("XXBT" = ("USD" : String))) = false from by decide]

/-- C10 (amended): every snapshot's detail map contains exactly the assets
whose lot queue is non-empty at that instant, and an asset never appears
with a zero (or negative) quantity; once fully consumed it stays absent
until a later acquisition re-adds a lot. -/
theorem C10_details_exactly_nonempty_queues :
    (∀ (txs : List Tx) (w d : Bool) (s' : EngineState),
       run txs w d = Except.ok s' →
       ∀ snap ∈ s'.portfolio_history, ∀ p ∈ snap.asset_details, 0 < p.2.qty) ∧
    (∀ (txs : List Tx) (w d : Bool) (s' : EngineState),
       run txs w d = Except.ok s' → (s'.inventory.map Prod.fst).Nodup) ∧
    (∀ (w d : Bool) (s : EngineState) (tx : Tx) (s' : EngineState),
       (s.inventory.map Prod.fst).Nodup →
       processTx w d s tx = Except.ok s' →
       ∃ snap, s'.portfolio_history = s.portfolio_history ++ [snap] ∧
         ∀ a : String, (∃ det, (a, det) ∈ snap.asset_details) ↔
           (∃ q, aget s'.inventory a = some q ∧ q ≠ [])) := by
  refine ⟨?_, ?_, ?_⟩
  · intro txs w d s' h
    exact (run_snapInv txs w d s' h).2.2
  · intro txs w d s' h
    exact (run_snapInv txs w d s' h).2.1
  · intro w d s tx s' hnd h
    obtain ⟨s1, h1, rfl⟩ := (processTx_ok_iff w d s tx s').mp h
    have hnd1 : KeysND s1 := processCore_keysND w d s tx s1 hnd h1
    refine ⟨mkSnapshot s1 tx, ?_, ?_⟩
    · rw [appendSnapshot_history, processCore_history w d s tx s1 h1]
    · intro a
      rw [appendSnapshot_inventory]
      exact mkSnapshot_details_mem s1 tx hnd1 a

/-- C10 witness: the inventory-key uniqueness of a concrete completed run,
from the amended theorem. -/
theorem C10_details_exactly_nonempty_queues_witness :
    (run ledgerRebuy true false).map (fun s => decide ((s.inventory.map Prod.fst).Nodup)) =
      Except.ok true := by
  cases hr : run ledgerRebuy true false with
  | error e =>
    exact absurd hr (by
      norm_num [run, sortTxs, insertTx, List.foldlM, processTx, processCore, processFiat,
        processPositive, processNegative, guardedDiv, pyDiv, setPrice, addLot, saleStep,
        strayAppend, consumeFromInventory, fifoConsume, appendSnapshot, mkSnapshot, aget,
        aset, agetD, lotsQty, lotsBasis, initState, mkTx, ledgerRebuy, exc_pure,
        exc_ok_bind, List.filter,
        show isFiat "XXBT" = false from by decide,
        show classifyNegative true "trade" = false from by decide,
        show classifyPositive false "trade" = false from by decide,
        show (decide ("XXBT" = ("ZUSD" : String))) = false from by decide,
        show (decide ("XXBT" = ("USD" : String))) = false from by decide]
      exact fun h => nomatch h)
  | ok S =>
    rw [exc_map_ok]
    exact congrArg Except.ok
      (decide_eq_true (C10_details_exactly_nonempty_queues.2.1 ledgerRebuy true false S hr))

end CryptoAnalysis
